import Mathlib

/-!
Verification of the gh-slimify eligibility/classification engine.

The Go sources are shallowly embedded: Go strings become `List Char`
(`Str`), Go slices become `List`, Go maps are modelled as association
lists or membership functions (only membership is ever queried), and
fallible operations return `Option`/`Except`.  Every definition below
mirrors one Go function of the repository; deviations forced by the
embedding (ASCII-only case folding, second-granularity durations) are
noted at the definition concerned.
-/

namespace GhSlimify

/-- Go strings are modelled as lists of characters. -/
abbrev Str := List Char

/-- Go `unicode.IsSpace` restricted to the ASCII whitespace characters
(space, tab, newline, vertical tab, form feed, carriage return). -/
def goIsSpace (c : Char) : Bool :=
  c = ' ' || c = '\t' || c = '\n' || c = '\x0b' || c = '\x0c' || c = '\r'

/-- Go `strings.TrimSpace` (ASCII model): drop whitespace from both ends. -/
def trimSpace (s : Str) : Str :=
  ((s.dropWhile goIsSpace).reverse.dropWhile goIsSpace).reverse

/-- Go `strings.Contains s sub`: `sub` occurs contiguously in `s`. -/
def goContains (s sub : Str) : Bool :=
  sub.isPrefixOf s ||
    match s with
    | [] => false
    | _ :: rest => goContains rest sub

/-- Go `strings.ToLower` (ASCII model): `Char.toLower` maps `A`-`Z` to
`a`-`z` and leaves everything else unchanged, as Go does on ASCII. -/
def goToLower (s : Str) : Str := s.map Char.toLower

/-- The `runs-on` value of a job: Go stores it as `interface{}` and
pattern-matches on `nil` / `string` / `[]any` / anything else.
Elements of a sequence are either strings or non-string values. -/
inductive RunsOn where
  | absent
  | scalar (s : Str)
  | seq (items : List (Option Str))
  | unsupported
  deriving DecidableEq, Repr

/-- One step of a job (`internal/workflow` `Step`; the opaque `with:`
map plays no role in any analysed function and is omitted). -/
structure Step where
  name : Str
  uses : Str
  run : Str
  deriving DecidableEq, Repr

/-- One job of a workflow (`internal/workflow` `Job`).  The opaque
`services:` / `container:` payloads only matter through nil-ness, so
they are modelled as `Option Str`. -/
structure Job where
  id : Str
  name : Str
  runsOn : RunsOn
  steps : List Step
  services : Option Str
  container : Option Str
  lineStart : Nat
  deriving DecidableEq, Repr

/-- The literal runner label the classifier looks for. -/
def ubuntuLatest : Str := "ubuntu-latest".toList

/-- Go `Job.IsUbuntuLatest`: the scalar must equal `"ubuntu-latest"`, or
some string element of the sequence must. -/
def Job.isUbuntuLatest (j : Job) : Bool :=
  match j.runsOn with
  | .absent => false
  | .scalar v => v == ubuntuLatest
  | .seq items => items.any (fun item =>
      match item with
      | some s => s == ubuntuLatest
      | none => false)
  | .unsupported => false

/-- Word characters of Go's regexp `\b`: `[0-9A-Za-z_]`. -/
def isWordChar (c : Char) : Bool := c.isAlphanum || c = '_'

/-- Character class `\s` of Go's regexp: `[\t\n\f\r ]`. -/
def isRegexSpace (c : Char) : Bool :=
  c = ' ' || c = '\t' || c = '\n' || c = '\x0c' || c = '\r'

/-- Drop a literal from the front of a string; `none` if it is not a
prefix.  Used to execute the literal pieces of the docker regexes. -/
def dropLit : Str → Str → Option Str
  | [], s => some s
  | _ :: _, [] => none
  | p :: ps, c :: cs => if p = c then dropLit ps cs else none

/-- A `\b` holds before a word character iff the preceding character (if
any) is not a word character. -/
def boundaryBefore : Option Char → Bool
  | none => true
  | some c => !isWordChar c

/-- A `\b` holds after a word character iff the following character (if
any) is not a word character. -/
def boundaryAfter : Str → Bool
  | [] => true
  | c :: _ => !isWordChar c

/-- The eight docker sub-commands of `containerCommandPatterns`. -/
def dockerSubcommands : List Str :=
  ["build".toList, "run".toList, "exec".toList, "ps".toList,
   "pull".toList, "push".toList, "tag".toList, "login".toList]

/-- Pattern `\bdocker[\s-](?:build|run|exec|ps|pull|push|tag|login)\b`
anchored at the start of `s`, where `prev` is the character immediately
before `s` in the scanned text. -/
def matchDockerCmdAt (prev : Option Char) (s : Str) : Bool :=
  boundaryBefore prev &&
    (match dropLit "docker".toList s with
     | none => false
     | some rest =>
       match rest with
       | [] => false
       | c :: rest2 =>
         (isRegexSpace c || c = '-') &&
           dockerSubcommands.any (fun w =>
             match dropLit w rest2 with
             | none => false
             | some rest3 => boundaryAfter rest3))

/-- Pattern `\bdocker-compose\b` anchored at the start of `s`. -/
def matchDockerComposeHyphenAt (prev : Option Char) (s : Str) : Bool :=
  boundaryBefore prev &&
    (match dropLit "docker-compose".toList s with
     | none => false
     | some rest => boundaryAfter rest)

/-- Pattern `\bdocker\s+compose\b` anchored at the start of `s`.  As the
literal `compose` starts with a non-space character, `\s+` can only
consume the maximal whitespace run. -/
def matchDockerSpaceComposeAt (prev : Option Char) (s : Str) : Bool :=
  boundaryBefore prev &&
    (match dropLit "docker".toList s with
     | none => false
     | some rest =>
       !(rest.takeWhile isRegexSpace).isEmpty &&
         (match dropLit "compose".toList (rest.dropWhile isRegexSpace) with
          | none => false
          | some rest3 => boundaryAfter rest3))

/-- Scan over every position of the text: `MatchString` of the three
compiled `containerCommandPatterns` succeeds iff some pattern matches at
some position (checking pattern-by-pattern or position-by-position finds
the same existence). -/
def containerCommandScan (prev : Option Char) : Str → Bool
  | [] => false
  | c :: rest =>
    matchDockerCmdAt prev (c :: rest) ||
    matchDockerComposeHyphenAt prev (c :: rest) ||
    matchDockerSpaceComposeAt prev (c :: rest) ||
    containerCommandScan (some c) rest

/-- Whether any of the three `containerCommandPatterns` matches `s`. -/
def containerCommandPatternsMatch (s : Str) : Bool :=
  containerCommandScan none s

/-- Go `Job.HasDockerCommands` (part_007): lower-case every non-empty
`run:` script and test the container-command patterns. -/
def Job.hasDockerCommands (j : Job) : Bool :=
  j.steps.any (fun step =>
    !step.run.isEmpty && containerCommandPatternsMatch (goToLower step.run))

/-- Go `containerActionPrefixes`: the single literal `docker`. -/
def containerActionPrefixes : List Str := ["docker".toList]

/-- Go `Job.HasContainerActions`: some step's non-empty `uses:` starts
with a container-action literal. -/
def Job.hasContainerActions (j : Job) : Bool :=
  j.steps.any (fun step =>
    !step.uses.isEmpty &&
      containerActionPrefixes.any (fun p => p.isPrefixOf step.uses))

/-- Go `Job.HasServices`: `j.Services != nil`. -/
def Job.hasServices (j : Job) : Bool := j.services.isSome

/-- Go `Job.HasContainer`: `j.Container != nil`. -/
def Job.hasContainer (j : Job) : Bool := j.container.isSome

/-- Reason strings of `checkEligibility`. -/
def reasonRunner : Str := "does not run on ubuntu-latest".toList

def reasonDocker : Str := "uses Docker commands".toList

def reasonActions : Str := "uses container-based GitHub Actions".toList

def reasonServices : Str := "uses service containers".toList

def reasonContainer : Str := "uses container syntax".toList

/-- Go `checkEligibility` (internal/scan): the runner criterion
short-circuits; the four remaining criteria each append their own
reason; eligible iff no reason accumulated. -/
def checkEligibility (j : Job) : Bool × List Str :=
  if !j.isUbuntuLatest then
    (false, [reasonRunner])
  else
    let reasons : List Str := []
    let reasons := if j.hasDockerCommands then reasons ++ [reasonDocker] else reasons
    let reasons := if j.hasContainerActions then reasons ++ [reasonActions] else reasons
    let reasons := if j.hasServices then reasons ++ [reasonServices] else reasons
    let reasons := if j.hasContainer then reasons ++ [reasonContainer] else reasons
    if reasons.length > 0 then (false, reasons) else (true, [])

/-- Spec-side reading of the runner criterion: the `runs-on` value
resolves to `"ubuntu-latest"` as the scalar or as a sequence element. -/
def resolvesToUbuntuLatest (j : Job) : Prop :=
  j.runsOn = .scalar ubuntuLatest ∨
    ∃ items, j.runsOn = .seq items ∧ some ubuntuLatest ∈ items

/-- Go `formatDuration` (internal/scan), modelled at whole-second
granularity: the `time.Duration` being formatted is a difference of two
whole-second timestamps, for which `d.Seconds()` / `d.Minutes()` /
`d.Hours()` and the `%.0f` rendering are exact, and Go's `int`
truncation becomes `Nat` division. -/
def formatDuration (secs : Nat) : String :=
  if secs < 60 then
    toString secs ++ "s"
  else if secs < 3600 then
    let minutes := secs / 60
    let seconds := secs % 60
    if seconds = 0 then toString minutes ++ "m"
    else toString minutes ++ "m" ++ toString seconds ++ "s"
  else
    let hours := secs / 3600
    let minutes := (secs / 60) % 60
    if minutes = 0 then toString hours ++ "h"
    else toString hours ++ "h" ++ toString minutes ++ "m"

/-- The character preceding the suffix after peeling `pre` from the
scanned text, when `prev` preceded the whole text. -/
def lastOr (prev : Option Char) (pre : Str) : Option Char :=
  pre.getLast?.or prev

/-- Spec-side reading of `\bdocker[\s-](?:build|...)\b`: the lowered
text decomposes around a literal `docker`, a single space-class or
hyphen separator and a sub-command, with word boundaries at both ends. -/
def dockerSubcommandOccurs (s : Str) : Prop :=
  ∃ pre sep sub post,
    s = pre ++ "docker".toList ++ sep :: (sub ++ post) ∧
    (isRegexSpace sep = true ∨ sep = '-') ∧
    sub ∈ dockerSubcommands ∧
    (∀ c, pre.getLast? = some c → isWordChar c = false) ∧
    (∀ c, post.head? = some c → isWordChar c = false)

/-- Spec-side reading of `\bdocker-compose\b`. -/
def dockerComposeHyphenOccurs (s : Str) : Prop :=
  ∃ pre post,
    s = pre ++ "docker-compose".toList ++ post ∧
    (∀ c, pre.getLast? = some c → isWordChar c = false) ∧
    (∀ c, post.head? = some c → isWordChar c = false)

/-- Spec-side reading of `\bdocker\s+compose\b`. -/
def dockerSpaceComposeOccurs (s : Str) : Prop :=
  ∃ pre ws post,
    s = pre ++ "docker".toList ++ ws ++ "compose".toList ++ post ∧
    ws ≠ [] ∧ (∀ c ∈ ws, isRegexSpace c = true) ∧
    (∀ c, pre.getLast? = some c → isWordChar c = false) ∧
    (∀ c, post.head? = some c → isWordChar c = false)

/-- Spec-side reading of the whole docker-command criterion. -/
def dockerCommandTextOccurs (s : Str) : Prop :=
  dockerSubcommandOccurs s ∨ dockerComposeHyphenOccurs s ∨
    dockerSpaceComposeOccurs s

/-- Go `strings.Split` with a non-empty separator, executed with a fuel
counter so that the recursion is structural (any fuel of at least the
input's length gives the Go behaviour: scan left to right, cut at every
non-overlapping leftmost occurrence of the separator). -/
def splitOnLitF (sep : Str) : Nat → Str → List Str
  | _, [] => [[]]
  | 0, s => [s]
  | fuel + 1, c :: cs =>
    if sep.isPrefixOf (c :: cs) then
      [] :: splitOnLitF sep fuel ((c :: cs).drop sep.length)
    else
      match splitOnLitF sep fuel cs with
      | [] => [[c]]
      | t :: ts => (c :: t) :: ts

/-- Go `strings.Split`.  Every call site in the sources passes a
non-empty separator; the empty-separator branch is never exercised. -/
def splitOnLit (sep s : Str) : List Str :=
  match sep with
  | [] => [s]
  | _ :: _ => splitOnLitF sep s.length s

/-- Go `strings.Fields` (ASCII model), with the same fuel device:
maximal runs of non-whitespace characters, in order. -/
def goFieldsF : Nat → Str → List Str
  | _, [] => []
  | 0, s => [s]
  | fuel + 1, c :: rest =>
    if goIsSpace c then goFieldsF fuel rest
    else (c :: rest.takeWhile (fun d => !goIsSpace d)) ::
      goFieldsF fuel (rest.dropWhile (fun d => !goIsSpace d))

/-- Go `strings.Fields`. -/
def goFields (s : Str) : List Str := goFieldsF s.length s

/-- Go `strings.Join` with separator `" "`. -/
def joinSpace : List Str → Str
  | [] => []
  | x :: xs =>
    match xs with
    | [] => x
    | _ :: _ => x ++ ' ' :: joinSpace xs

/-- The separator list of `splitCommandLine`, in source order. -/
def commandSeparators : List Str :=
  ["|".toList, "&&".toList, "||".toList, ";".toList,
   ">>".toList, "<<".toList, ">".toList, "<".toList]

/-- Go `splitCommandLine`: split by every separator in turn, trimming
each piece and keeping the non-empty ones. -/
def splitCommandLine (line : Str) : List Str :=
  commandSeparators.foldl
    (fun parts sep =>
      parts.flatMap (fun part =>
        ((splitOnLit sep part).map trimSpace).filter (fun s => !s.isEmpty)))
    [line]

/-- The command-wrapping tokens skipped by `extractCommandFromPart`. -/
def commandWrapperTokens : List Str :=
  ["sudo".toList, "env".toList, "time".toList,
   "nohup".toList, "setsid".toList, "stdbuf".toList]

/-- Go `extractCommandFromPart`: trim, skip leading fields containing
`=`, re-join and re-split, skip wrapper tokens, return the first
remaining field (or the empty string). -/
def extractCommandFromPart (partStr : Str) : Str :=
  let p := trimSpace partStr
  if p.isEmpty then []
  else
    let fields := goFields p
    if fields.isEmpty then []
    else
      let rest := fields.dropWhile (fun f => goContains f ['='])
      if rest.isEmpty then []
      else
        let fields2 := goFields (joinSpace rest)
        if fields2.isEmpty then []
        else
          match fields2.dropWhile (fun f => commandWrapperTokens.contains f) with
          | [] => []
          | cmd :: _ => cmd

/-- Go `extractCommands`: split the script into lines; drop blank and
`#`-comment lines (the separate `#!` shebang test of the source is dead
code, mirrored here); split each surviving line into command parts and
keep every non-empty extracted command. -/
def extractCommands (script : Str) : List Str :=
  (splitOnLit ['\n'] script).flatMap (fun rawLine =>
    let line := trimSpace rawLine
    if line.isEmpty then []
    else if (['#'] : Str).isPrefixOf line then []
    else if ("#!".toList : Str).isPrefixOf line then []
    else
      (splitCommandLine line).flatMap (fun part =>
        let cmd := extractCommandFromPart part
        if cmd.isEmpty then [] else [cmd]))

/-- Go `normalizeCommand`: keep only the basename (the last `/`-piece;
`strings.Split` never returns an empty list, so `parts[len-1]` is
modelled by `getLastD`), then trim. -/
def normalizeCommand (cmd : Str) : Str :=
  if cmd.isEmpty then []
  else
    let cmd2 :=
      if goContains cmd ['/'] then (splitOnLit ['/'] cmd).getLastD []
      else cmd
    trimSpace cmd2

/-- Go `setupActionCommands`: the static table mapping setup-action
reference stems to the commands they provide.  The Go map is only ever
iterated to test membership, so an association list is a faithful
model. -/
def setupActionCommands : List (Str × List Str) :=
  [("actions/setup-go".toList, ["go".toList]),
   ("actions/setup-node".toList, ["node".toList, "npm".toList, "npx".toList]),
   ("actions/setup-python".toList,
     ["python".toList, "python3".toList, "pip".toList, "pip3".toList]),
   ("actions/setup-java".toList,
     ["java".toList, "javac".toList, "mvn".toList, "gradle".toList]),
   ("actions/setup-dotnet".toList, ["dotnet".toList]),
   ("actions/setup-ruby".toList, ["ruby".toList, "gem".toList]),
   ("hashicorp/setup-terraform".toList, ["terraform".toList]),
   ("hashicorp/setup-packer".toList, ["packer".toList]),
   ("oven-sh/setup-bun".toList, ["bun".toList]),
   ("astral-sh/setup-uv".toList, ["uv".toList]),
   ("erlef/setup-beam".toList,
     ["erl".toList, "elixir".toList, "mix".toList, "rebar3".toList,
      "hex".toList]),
   ("microsoft/setup-msbuild".toList, ["msbuild".toList]),
   ("denoland/setup-deno".toList, ["deno".toList]),
   ("jfrog/setup-jfrog-cli".toList, ["jfrog".toList]),
   ("supabase/setup-cli".toList, ["supabase".toList]),
   ("aws-actions/setup-sam".toList, ["sam".toList]),
   ("gruntwork-io/setup-terragrunt".toList, ["terragrunt".toList]),
   ("pdm-project/setup-pdm".toList, ["pdm".toList])]

/-- Go `getSetupProvidedCommands`, as the membership function of the
returned set: a command is provided iff some step's non-empty `uses:`
starts with a table entry's stem and the entry lists the command. -/
def Job.setupProvided (j : Job) (cmd : Str) : Bool :=
  j.steps.any (fun step =>
    !step.uses.isEmpty &&
      setupActionCommands.any (fun entry =>
        entry.1.isPrefixOf step.uses && entry.2.contains cmd))

/-- The inner command loop of Go `GetMissingCommands`, threading the
`seen` set (as a list queried by membership) and the accumulator. -/
def getMissingCommandsAux (isMissing provided : Str → Bool) :
    List Str → List Str → List Str → List Str × List Str
  | [], seen, acc => (acc, seen)
  | cmd :: rest, seen, acc =>
    let cmdName := normalizeCommand cmd
    if cmdName.isEmpty then
      getMissingCommandsAux isMissing provided rest seen acc
    else if provided cmdName then
      getMissingCommandsAux isMissing provided rest seen acc
    else if isMissing cmdName && !seen.contains cmdName then
      getMissingCommandsAux isMissing provided rest (cmdName :: seen)
        (acc ++ [cmdName])
    else
      getMissingCommandsAux isMissing provided rest seen acc

/-- The step loop of Go `GetMissingCommands`. -/
def getMissingCommandsSteps (isMissing provided : Str → Bool) :
    List Step → List Str → List Str → List Str × List Str
  | [], seen, acc => (acc, seen)
  | step :: rest, seen, acc =>
    if step.run.isEmpty then
      getMissingCommandsSteps isMissing provided rest seen acc
    else
      let r := getMissingCommandsAux isMissing provided
        (extractCommands step.run) seen acc
      getMissingCommandsSteps isMissing provided rest r.2 r.1

/-- One pass of the separator fold of `splitCommandLine`. -/
def splitStep (parts : List Str) (sep : Str) : List Str :=
  parts.flatMap (fun part =>
    ((splitOnLit sep part).map trimSpace).filter (fun s => !s.isEmpty))

/-- Spec-side reading of path stripping: the substring after the last
`/` of the command (the whole command when it has no `/`). -/
def afterLastSlash (cmd : Str) : Str :=
  (cmd.reverse.takeWhile (fun c => !(c == '/'))).reverse

/-- The normalization stage of `GetMissingCommands`: extract commands,
normalize each, and keep the non-empty names. -/
def normalizedCommands (script : Str) : List Str :=
  ((extractCommands script).map normalizeCommand).filter (fun c => !c.isEmpty)

/-- Spec-side first-seen de-duplication, written without the `seen`
accumulator of the source. -/
def dedupKeepFirst : List Str → List Str
  | [] => []
  | x :: xs => x :: dedupKeepFirst (xs.filter (fun y => !(y == x)))
  termination_by l => l.length
  decreasing_by
    simp only [List.length_cons]
    have := List.length_filter_le (fun y => !(y == t)) ts
    omega

/-- Go `Job.GetMissingCommands`.  Modelled from the spec: the static
missing-in-slim set (`IsMissingInSlim`) is used here but its defining
table is not among the provided sources; the function depends on it
only through membership tests, so the set is passed as the membership
predicate `isMissing`. -/
def Job.getMissingCommands (j : Job) (isMissing : Str → Bool) : List Str :=
  if !j.isUbuntuLatest then []
  else (getMissingCommandsSteps isMissing j.setupProvided j.steps [] []).1

/-- The raw command stream `GetMissingCommands` walks: the extracted
commands of every step with a non-empty script, in order. -/
def stepScriptCommands (steps : List Step) : List Str :=
  steps.flatMap (fun st => if st.run.isEmpty then [] else extractCommands st.run)

/-- The normalized command stream of a job, in evaluation order. -/
def jobCommandStream (j : Job) : List Str :=
  (stepScriptCommands j.steps).map normalizeCommand

/-- A loaded workflow (internal/workflow `Workflow`): the Go jobs map is
modelled as an association list in some iteration order (the order is
unspecified in Go and nothing below depends on it). -/
structure Workflow where
  path : Str
  jobs : List (Str × Job)

/-- Go `Candidate` (internal/scan): an eligible job, with `Duration`
left at its zero value `""` until enrichment. -/
structure Candidate where
  workflowPath : Str
  jobID : Str
  jobName : Str
  lineNumber : Nat
  duration : String
  missingCommands : List Str
  deriving DecidableEq, Repr

/-- Go `IneligibleJob` (internal/scan). -/
structure IneligibleJob where
  workflowPath : Str
  jobID : Str
  jobName : Str
  lineNumber : Nat
  reasons : List Str
  deriving DecidableEq, Repr

/-- Go `ScanResult` (internal/scan). -/
structure ScanResult where
  candidates : List Candidate
  ineligibleJobs : List IneligibleJob
  deriving DecidableEq, Repr

/-- One iteration of the classification loop of Go `Scan`. -/
def classifyStep (isMissing : Str → Bool) (path : Str)
    (acc : List Candidate × List IneligibleJob) (jobEntry : Str × Job) :
    List Candidate × List IneligibleJob :=
  match checkEligibility jobEntry.2 with
  | (true, _) =>
    (acc.1 ++ [⟨path, jobEntry.1, jobEntry.2.name, jobEntry.2.lineStart, "",
      jobEntry.2.getMissingCommands isMissing⟩], acc.2)
  | (false, reasons) =>
    (acc.1, acc.2 ++ [⟨path, jobEntry.1, jobEntry.2.name,
      jobEntry.2.lineStart, reasons⟩])

/-- The classification loops of Go `Scan`: every job of every workflow
is classified, candidates and ineligible jobs accumulating in order. -/
def classifyJobs (isMissing : Str → Bool) (wfs : List Workflow) :
    List Candidate × List IneligibleJob :=
  wfs.foldl (fun acc wf => wf.jobs.foldl (classifyStep isMissing wf.path) acc)
    ([], [])

/-- Go `fetchDurations`: `GetRepoInfo` and `NewClient` are collapsed
into the oracle `repo` (their failures both abort before any candidate
is touched); `client.GetJobDuration` is the oracle `getDur`, returning
whole seconds.  A per-candidate failure is logged and skipped, leaving
that candidate unchanged (duration stays `""`). -/
def fetchDurations (repo : Except String Unit)
    (getDur : Str → Str → Str → Except String Nat)
    (cands : List Candidate) : Except String (List Candidate) :=
  if cands.isEmpty then Except.ok cands
  else
    match repo with
    | .error e => .error e
    | .ok _ => .ok (cands.map (fun c =>
        match getDur c.workflowPath c.jobID c.jobName with
        | .error _ => c
        | .ok d => { c with duration := formatDuration d }))

/-- The post-load body of Go `Scan`: classify, then (unless skipped)
enrich durations, swallowing any `fetchDurations` error with a warning
and keeping the un-enriched candidates. -/
def scanCore (isMissing : Str → Bool) (skipDuration : Bool)
    (repo : Except String Unit)
    (getDur : Str → Str → Str → Except String Nat)
    (wfs : List Workflow) : ScanResult :=
  let r := classifyJobs isMissing wfs
  let cands :=
    if skipDuration then r.1
    else
      match fetchDurations repo getDur r.1 with
      | .error _ => r.1
      | .ok cs => cs
  ⟨cands, r.2⟩

/-- Go `Scan` with the workflow-loading outcome as an input: a load
failure is the only error path of the function. -/
def goScan (isMissing : Str → Bool) (skipDuration : Bool)
    (repo : Except String Unit)
    (getDur : Str → Str → Str → Except String Nat)
    (loaded : Except String (List Workflow)) : Except String ScanResult :=
  match loaded with
  | .error e => .error e
  | .ok wfs => .ok (scanCore isMissing skipDuration repo getDur wfs)

/-- Concrete missing-in-slim predicate for exercising the scan. -/
def wIsMissing : Str → Bool := fun _ => false

def wStepEcho : Step := ⟨"say hi".toList, [], "echo hi".toList⟩

def wJobGood : Job :=
  ⟨"build".toList, "Build".toList, .scalar ubuntuLatest, [wStepEcho],
    none, none, 5⟩

def wJobWin : Job :=
  ⟨"win".toList, "Windows".toList, .scalar "windows-latest".toList,
    [wStepEcho], none, none, 12⟩

def wWorkflow : Workflow :=
  ⟨".github/workflows/ci.yml".toList,
    [("build".toList, wJobGood), ("win".toList, wJobWin)]⟩

/-- A duration oracle that fails on every job. -/
def wGetDurFail : Str → Str → Str → Except String Nat :=
  fun _ _ _ => Except.error "api failure"

/-- The candidate the classification loop produces for `wJobGood`. -/
def wCand : Candidate :=
  ⟨".github/workflows/ci.yml".toList, "build".toList, "Build".toList,
    5, "", []⟩

/-- Go `strings.HasSuffix`. -/
def goHasSuffix (s suffix : Str) : Bool := suffix.reverse.isPrefixOf s.reverse

/-- The indentation counter of `UpdateRunsOn`: every space (and every
tab, counted as four) anywhere in the line is added — the `switch` has
no loop exit, so counting does not stop at the first non-blank rune. -/
def lineIndentOf (line : Str) : Nat :=
  line.foldl (fun n c => if c = ' ' then n + 1 else if c = '\t' then n + 4 else n) 0

/-- The leading-whitespace extraction of the replacement branch of
`UpdateRunsOn`: bytes up to the first one that is not a space or tab. -/
def leadingIndent (line : Str) : Str :=
  line.takeWhile (fun c => c = ' ' || c = '\t')

def jobsHeader : Str := "jobs:".toList

def runsOnKey : Str := "runs-on:".toList

/-- The line loop of Go `UpdateRunsOn`, over the remaining lines and
the mutable state `(inJobsSection, inTargetJob, indentLevel)`.  The
first component is the lines slice after the loop (a `break` leaves
the rest untouched; on success the matched line is replaced by the
original leading whitespace followed by `"runs-on: " + newRunsOn`),
the second is the `updated` flag. -/
def updateLoop (jobID newRunsOn : Str) :
    List Str → Bool → Bool → Nat → List Str × Bool
  | [], _, _, _ => ([], false)
  | line :: rest, inJobs, inTarget, indentLevel =>
    let trimmed := trimSpace line
    if trimmed == jobsHeader then
      let r := updateLoop jobID newRunsOn rest true inTarget indentLevel
      (line :: r.1, r.2)
    else if !inJobs then
      let r := updateLoop jobID newRunsOn rest inJobs inTarget indentLevel
      (line :: r.1, r.2)
    else
      let lineIndent := lineIndentOf line
      if lineIndent == 0 && !trimmed.isEmpty && !goHasSuffix trimmed [':'] then
        (line :: rest, false)
      else if (jobID ++ [':']).isPrefixOf trimmed then
        let r := updateLoop jobID newRunsOn rest inJobs true lineIndent
        (line :: r.1, r.2)
      else if inTarget then
        if decide (lineIndent ≤ indentLevel) && !trimmed.isEmpty &&
            !([' '].isPrefixOf trimmed) then
          (line :: rest, false)
        else if goContains trimmed runsOnKey &&
            goContains trimmed ubuntuLatest then
          ((leadingIndent line ++ "runs-on: ".toList ++ newRunsOn) :: rest, true)
        else
          let r := updateLoop jobID newRunsOn rest inJobs inTarget indentLevel
          (line :: r.1, r.2)
      else
        let r := updateLoop jobID newRunsOn rest inJobs inTarget indentLevel
        (line :: r.1, r.2)

/-- Go `UpdateRunsOn` with file IO factored out: the input is the file
content split on newline, the output is `some` of the new content
lines — the only case in which a write is performed — or `none` when
the loop never found, inside the target job's block, a `runs-on` line
containing `ubuntu-latest` (Go returns the `failed to find runs-on`
error there, before any write). -/
def updateRunsOn (jobID newRunsOn : Str) (lines : List Str) :
    Option (List Str) :=
  let r := updateLoop jobID newRunsOn lines false false 0
  if r.2 then some r.1 else none

/-- The lines the `UpdateRunsOn` loop inspects while inside the target
job's block: the same state machine as `updateLoop`, but collecting
every line that reaches the in-target-job stage without triggering a
block exit, instead of stopping at the first replaceable line. -/
def targetBlockF (jobID : Str) :
    List Str → Bool → Bool → Nat → List Str
  | [], _, _, _ => []
  | line :: rest, inJobs, inTarget, indentLevel =>
    let trimmed := trimSpace line
    if trimmed == jobsHeader then
      targetBlockF jobID rest true inTarget indentLevel
    else if !inJobs then
      targetBlockF jobID rest inJobs inTarget indentLevel
    else
      let lineIndent := lineIndentOf line
      if lineIndent == 0 && !trimmed.isEmpty && !goHasSuffix trimmed [':'] then
        []
      else if (jobID ++ [':']).isPrefixOf trimmed then
        targetBlockF jobID rest inJobs true lineIndent
      else if inTarget then
        if decide (lineIndent ≤ indentLevel) && !trimmed.isEmpty &&
            !([' '].isPrefixOf trimmed) then
          []
        else
          line :: targetBlockF jobID rest inJobs inTarget indentLevel
      else
        targetBlockF jobID rest inJobs inTarget indentLevel

/-- The target job's block as delimited by the `UpdateRunsOn` scan. -/
def targetBlock (jobID : Str) (lines : List Str) : List Str :=
  targetBlockF jobID lines false false 0

/-- Concrete workflow lines whose job `test` exists but writes its
runner sequence across multiple lines. -/
def wMatrixLines : List Str :=
  ["name: ci".toList, "on: push".toList, "jobs:".toList,
   "  test:".toList, "    runs-on:".toList,
   "      - ubuntu-latest".toList, "      - macos-13".toList,
   "    steps:".toList, "      - run: echo hi".toList, [] ]

/-- A canonical single-line-layout workflow job, the document class over
which the update/reload round trip is stated: one header line, one
scalar `runs-on:` line, optional single-line `services:` / `container:`
blocks, and one `- run:` line per script. -/
structure SimpleJob where
  id : Str
  runsOn : Str
  services : Option Str
  container : Option Str
  scripts : List Str
  deriving DecidableEq, Repr

/-- The lines of one job in the canonical layout. -/
def renderJob (j : SimpleJob) : List Str :=
  [("  ".toList ++ j.id ++ [':']),
   ("    runs-on: ".toList ++ j.runsOn)] ++
  (match j.services with
   | none => []
   | some s => [("    services: ".toList ++ s)]) ++
  (match j.container with
   | none => []
   | some c => [("    container: ".toList ++ c)]) ++
  ["    steps:".toList] ++
  j.scripts.map (fun r => "      - run: ".toList ++ r)

/-- A canonical workflow document: fixed `name:`/`on:` head, the `jobs:`
marker, then each job\x27s block in order. -/
def renderDoc (jobs : List SimpleJob) : List Str :=
  ["name: test".toList, "on: push".toList, jobsHeader] ++
    jobs.flatMap renderJob

/-- The fixed prefix of a rendered script line. -/
def runMarker : Str := "      - run: ".toList

/-- Strip a prefix, `none` when it does not match (Go
`strings.TrimPrefix` plus the prefix test). -/
def afterPrefixOf (p s : Str) : Option Str :=
  if p.isPrefixOf s then some (s.drop p.length) else none

/-- Modelled from the spec: the job-key line of the canonical layout as
the YAML loader reads it — two spaces, the key, a trailing colon. -/
def parseHeader (l : Str) : Option Str :=
  match afterPrefixOf "  ".toList l with
  | none => none
  | some t =>
    if t.getLast? == some ':' then some t.dropLast else none

/-- Modelled from the spec: one job block of the canonical layout as the
YAML loader reads it — runner scalar, optional services / container
payloads (kept opaque), and the `run:` scripts in step order. -/
def parseOneJob (lines : List Str) : Option (SimpleJob × List Str) :=
  match lines with
  | [] => none
  | l0 :: r0 =>
    match parseHeader l0 with
    | none => none
    | some id =>
      match r0 with
      | [] => none
      | l1 :: r1 =>
        match afterPrefixOf "    runs-on: ".toList l1 with
        | none => none
        | some runsOn =>
          let p2 : Option Str × List Str :=
            match r1 with
            | [] => (none, [])
            | l :: r =>
              match afterPrefixOf "    services: ".toList l with
              | some s => (some s, r)
              | none => (none, l :: r)
          let p3 : Option Str × List Str :=
            match p2.2 with
            | [] => (none, [])
            | l :: r =>
              match afterPrefixOf "    container: ".toList l with
              | some c => (some c, r)
              | none => (none, l :: r)
          match p3.2 with
          | [] => none
          | lsteps :: r4 =>
            if lsteps == "    steps:".toList then
              some (⟨id, runsOn, p2.1, p3.1,
                      (r4.takeWhile (fun l => runMarker.isPrefixOf l)).map
                        (fun l => l.drop runMarker.length)⟩,
                    r4.dropWhile (fun l => runMarker.isPrefixOf l))
            else none

/-- Modelled from the spec: the jobs map of the canonical layout in
document order; `fuel` bounds the number of blocks and is instantiated
with the line count. -/
def parseJobsF : Nat → List Str → Option (List SimpleJob)
  | _, [] => some []
  | 0, _ :: _ => none
  | fuel + 1, l :: r =>
    match parseOneJob (l :: r) with
    | none => none
    | some (j, rest) =>
      match parseJobsF fuel rest with
      | none => none
      | some js => some (j :: js)

/-- Modelled from the spec: `LoadWorkflow` on a canonical document.  The
actual YAML parsing is done by the external yaml library, so the loader
is modelled as the inverse reading of the canonical layout. -/
def parseSimpleDoc (lines : List Str) : Option (List SimpleJob) :=
  match lines with
  | l0 :: l1 :: l2 :: body =>
    if l0 == "name: test".toList && l1 == "on: push".toList &&
        l2 == jobsHeader then
      parseJobsF body.length body
    else none
  | _ => none

/-- Keys of the canonical layout that a job id must not collide with. -/
def reservedKeys : List Str :=
  ["jobs".toList, "runs-on".toList, "services".toList,
   "container".toList, "steps".toList]

/-- Well-formedness of a job id in the canonical layout: non-empty, free
of whitespace and colons, and distinct from the layout\x27s own keys. -/
def wfJobId (id : Str) : Prop :=
  id ≠ [] ∧ (∀ c ∈ id, ¬goIsSpace c ∧ c ≠ ':') ∧ id ∉ reservedKeys

instance (id : Str) : Decidable (wfJobId id) := by
  unfold wfJobId
  infer_instance

/-- A job whose runner is a scalar other than `ubuntu-latest`. -/
def wWinJob : SimpleJob :=
  ⟨"test".toList, "windows-latest".toList, none, none, ["echo hi".toList]⟩

/-- A job with runner `ubuntu-latest` and services/container set. -/
def wGoodJob : SimpleJob :=
  ⟨"build".toList, "ubuntu-latest".toList, some "postgres".toList,
    some "node".toList, ["echo hi".toList]⟩

/-- Per-character weight of the `UpdateRunsOn` indentation counter. -/
def indentWeight (c : Char) : Nat :=
  if c = ' ' then 1 else if c = '\t' then 4 else 0

/-- The lines of a job block after the header and runner lines. -/
def renderTail (sv co : Option Str) (scr : List Str) : List Str :=
  (match sv with
   | none => []
   | some s => [("    services: ".toList ++ s)]) ++
  (match co with
   | none => []
   | some c => [("    container: ".toList ++ c)]) ++
  ["    steps:".toList] ++ scr.map (fun r => "      - run: ".toList ++ r)

theorem isUbuntuLatest_iff (j : Job) :
    j.isUbuntuLatest = true ↔ resolvesToUbuntuLatest j := by
  unfold Job.isUbuntuLatest resolvesToUbuntuLatest
  cases h : j.runsOn with
  | absent => simp [h]
  | scalar v =>
    simp only [beq_iff_eq, h, List.any_eq_true]
    constructor
    · intro hv; exact Or.inl (by rw [hv])
    · rintro (hv | ⟨items, hitems, _⟩)
      · cases hv; rfl
      · cases hitems
  | seq items =>
    simp only [h, List.any_eq_true]
    constructor
    · rintro ⟨item, hmem, hit⟩
      cases item with
      | none => simp at hit
      | some s =>
        simp only [beq_iff_eq] at hit
        exact Or.inr ⟨items, rfl, by rw [← hit]; exact hmem⟩
    · rintro (hv | ⟨items2, hitems, hmem⟩)
      · cases hv
      · cases hitems; exact ⟨some ubuntuLatest, hmem, by simp⟩
  | unsupported => simp [h]

theorem dropLit_eq_some_iff (lit : Str) :
    ∀ s r, dropLit lit s = some r ↔ s = lit ++ r := by
  induction lit with
  | nil => intro s r; simp [dropLit]
  | cons p ps ih =>
    intro s r
    cases s with
    | nil => simp [dropLit]
    | cons c cs =>
      by_cases h : p = c
      · subst h
        simp [dropLit, ih]
      · simp only [dropLit, if_neg h, List.cons_append]
        exact iff_of_false (by intro hx; cases hx)
          (by intro hx; injection hx with h1 _; exact h h1.symm)

theorem boundaryAfter_iff (s : Str) :
    boundaryAfter s = true ↔ ∀ c, s.head? = some c → isWordChar c = false := by
  cases s <;> simp [boundaryAfter]

theorem boundaryBefore_getLast_iff (pre : Str) :
    boundaryBefore pre.getLast? = true ↔
      ∀ c, pre.getLast? = some c → isWordChar c = false := by
  cases h : pre.getLast? <;> simp [boundaryBefore, h]

theorem matchDockerCmdAt_eq_true_iff (prev : Option Char) (s : Str) :
    matchDockerCmdAt prev s = true ↔
      boundaryBefore prev = true ∧
        ∃ sep sub post, s = "docker".toList ++ sep :: (sub ++ post) ∧
          (isRegexSpace sep = true ∨ sep = '-') ∧
          sub ∈ dockerSubcommands ∧ boundaryAfter post = true := by
  unfold matchDockerCmdAt
  cases hdrop : dropLit "docker".toList s with
  | none =>
    simp only [Bool.and_false, Bool.false_eq_true, false_iff]
    rintro ⟨_, sep, sub, post, hs, _⟩
    rw [show ("docker".toList ++ sep :: (sub ++ post)) =
        "docker".toList ++ (sep :: (sub ++ post)) from rfl] at hs
    rw [(dropLit_eq_some_iff _ _ _).mpr hs] at hdrop
    cases hdrop
  | some rest =>
    have hs := (dropLit_eq_some_iff _ _ _).mp hdrop
    subst hs
    cases rest with
    | nil =>
      simp only [Bool.and_false, Bool.false_eq_true, false_iff]
      rintro ⟨_, sep, sub, post, hs, _⟩
      have := List.append_cancel_left hs
      cases this
    | cons c rest2 =>
      simp only [Bool.and_eq_true, List.any_eq_true]
      constructor
      · rintro ⟨hb, hsep, sub, hmem, hsub⟩
        cases hdrop2 : dropLit sub rest2 with
        | none => rw [hdrop2] at hsub; cases hsub
        | some rest3 =>
          have := (dropLit_eq_some_iff _ _ _).mp hdrop2
          subst this
          rw [hdrop2] at hsub
          exact ⟨hb, c, sub, rest3, rfl, by
            rcases Bool.or_eq_true _ _ |>.mp hsep with h | h
            · exact Or.inl h
            · exact Or.inr (by simpa using h), hmem, hsub⟩
      · rintro ⟨hb, sep, sub, post, hs, hsep, hmem, hpost⟩
        have h2 := List.append_cancel_left hs
        cases h2
        refine ⟨hb, ?_, sub, hmem, ?_⟩
        · rcases hsep with h | h
          · exact Bool.or_eq_true _ _ |>.mpr (Or.inl h)
          · exact Bool.or_eq_true _ _ |>.mpr (Or.inr (by simp [h]))
        · rw [(dropLit_eq_some_iff _ _ _).mpr rfl]
          exact hpost

theorem matchDockerComposeHyphenAt_eq_true_iff (prev : Option Char) (s : Str) :
    matchDockerComposeHyphenAt prev s = true ↔
      boundaryBefore prev = true ∧
        ∃ post, s = "docker-compose".toList ++ post ∧
          boundaryAfter post = true := by
  unfold matchDockerComposeHyphenAt
  cases hdrop : dropLit "docker-compose".toList s with
  | none =>
    simp only [Bool.and_false, Bool.false_eq_true, false_iff]
    rintro ⟨_, post, hs, _⟩
    rw [(dropLit_eq_some_iff _ _ _).mpr hs] at hdrop
    cases hdrop
  | some rest =>
    have hs := (dropLit_eq_some_iff _ _ _).mp hdrop
    subst hs
    simp only [Bool.and_eq_true]
    constructor
    · rintro ⟨hb, hrest⟩
      exact ⟨hb, rest, rfl, hrest⟩
    · rintro ⟨hb, post, hs, hpost⟩
      have := List.append_cancel_left hs
      cases this
      exact ⟨hb, hpost⟩

theorem takeWhile_dropWhile_decomp {p : Char → Bool} {l ws rest : Str}
    (hl : l = ws ++ rest) (hws : ∀ c ∈ ws, p c = true)
    (hrest : ∀ c, rest.head? = some c → p c = false) :
    l.takeWhile p = ws ∧ l.dropWhile p = rest := by
  subst hl
  induction ws with
  | nil =>
    cases rest with
    | nil => simp
    | cons c cs =>
      have := hrest c (by simp)
      simp [List.takeWhile, List.dropWhile, this]
  | cons w wsTail ih =>
    have hw := hws w (by simp)
    have ih2 := ih (fun c hc => hws c (by simp [hc]))
    simp [List.takeWhile, List.dropWhile, hw, ih2.1, ih2.2]

theorem matchDockerSpaceComposeAt_eq_true_iff (prev : Option Char) (s : Str) :
    matchDockerSpaceComposeAt prev s = true ↔
      boundaryBefore prev = true ∧
        ∃ ws post, s = "docker".toList ++ ws ++ "compose".toList ++ post ∧
          ws ≠ [] ∧ (∀ c ∈ ws, isRegexSpace c = true) ∧
          boundaryAfter post = true := by
  unfold matchDockerSpaceComposeAt
  cases hdrop : dropLit "docker".toList s with
  | none =>
    simp only [Bool.and_false, Bool.false_eq_true, false_iff]
    rintro ⟨_, ws, post, hs, _⟩
    have hs2 : s = "docker".toList ++ (ws ++ ("compose".toList ++ post)) := by
      simpa [List.append_assoc] using hs
    rw [(dropLit_eq_some_iff _ _ _).mpr hs2] at hdrop
    cases hdrop
  | some rest =>
    have hs := (dropLit_eq_some_iff _ _ _).mp hdrop
    subst hs
    simp only [Bool.and_eq_true]
    constructor
    · rintro ⟨hb, hne, hcomp⟩
      cases hdrop2 : dropLit "compose".toList (rest.dropWhile isRegexSpace) with
      | none => rw [hdrop2] at hcomp; cases hcomp
      | some rest3 =>
        rw [hdrop2] at hcomp
        have hsplit := (dropLit_eq_some_iff _ _ _).mp hdrop2
        refine ⟨hb, rest.takeWhile isRegexSpace, rest3, ?_, ?_, ?_, hcomp⟩
        · have hrw : rest = rest.takeWhile isRegexSpace ++
              ("compose".toList ++ rest3) := by
            rw [← hsplit, List.takeWhile_append_dropWhile]
          rw [show "docker".toList ++ rest.takeWhile isRegexSpace ++
              "compose".toList ++ rest3 =
              "docker".toList ++ (rest.takeWhile isRegexSpace ++
                ("compose".toList ++ rest3)) by simp, ← hrw]
        · intro hnil
          rw [hnil] at hne
          simp at hne
        · intro c hc
          exact List.mem_takeWhile_imp hc
    · rintro ⟨hb, ws, post, hs, hne, hws, hpost⟩
      have h2 : rest = ws ++ ("compose".toList ++ post) := by
        have hs2 : "docker".toList ++ rest =
            "docker".toList ++ (ws ++ ("compose".toList ++ post)) := by
          simpa [List.append_assoc] using hs
        exact List.append_cancel_left hs2
      have hheadc : ∀ c, ("compose".toList ++ post).head? = some c →
          isRegexSpace c = false := by
        intro c hc
        rw [show ("compose".toList ++ post).head? = some 'c' from rfl] at hc
        cases hc
        decide
      have hdecomp := takeWhile_dropWhile_decomp h2 hws hheadc
      refine ⟨hb, ?_, ?_⟩
      · rw [hdecomp.1]
        cases ws with
        | nil => exact absurd rfl hne
        | cons w wsTail => simp
      · rw [hdecomp.2, (dropLit_eq_some_iff _ _ _).mpr rfl]
        exact hpost

theorem lastOr_nil (prev : Option Char) : lastOr prev [] = prev := rfl

theorem getLast?_cons_ne_none (d : Char) (ds : Str) :
    (d :: ds).getLast? ≠ none := by
  induction ds generalizing d with
  | nil => simp
  | cons e es ih => rw [List.getLast?_cons_cons]; exact ih e

theorem lastOr_cons (prev : Option Char) (c : Char) (pre : Str) :
    lastOr prev (c :: pre) = lastOr (some c) pre := by
  cases pre with
  | nil => rfl
  | cons d ds =>
    cases h : (d :: ds).getLast? with
    | none => exact absurd h (getLast?_cons_ne_none d ds)
    | some x => simp [lastOr, List.getLast?_cons_cons, h]

theorem matchDockerCmdAt_nil (p : Option Char) :
    matchDockerCmdAt p [] = false := by
  unfold matchDockerCmdAt
  rw [show dropLit "docker".toList ([] : Str) = none from rfl]
  simp

theorem matchDockerComposeHyphenAt_nil (p : Option Char) :
    matchDockerComposeHyphenAt p [] = false := by
  unfold matchDockerComposeHyphenAt
  rw [show dropLit "docker-compose".toList ([] : Str) = none from rfl]
  simp

theorem matchDockerSpaceComposeAt_nil (p : Option Char) :
    matchDockerSpaceComposeAt p [] = false := by
  unfold matchDockerSpaceComposeAt
  rw [show dropLit "docker".toList ([] : Str) = none from rfl]
  simp

theorem containerCommandScan_eq_true_iff :
    ∀ (s : Str) (prev : Option Char),
    containerCommandScan prev s = true ↔
      ∃ pre post, s = pre ++ post ∧
        (matchDockerCmdAt (lastOr prev pre) post = true ∨
         matchDockerComposeHyphenAt (lastOr prev pre) post = true ∨
         matchDockerSpaceComposeAt (lastOr prev pre) post = true) := by
  intro s
  induction s with
  | nil =>
    intro prev
    constructor
    · intro h
      simp [containerCommandScan] at h
    · rintro ⟨pre, post, happ, hm⟩
      obtain ⟨hpre, hpost⟩ := List.append_eq_nil.mp happ.symm
      subst hpre; subst hpost
      rcases hm with h | h | h
      · rw [matchDockerCmdAt_nil] at h; cases h
      · rw [matchDockerComposeHyphenAt_nil] at h; cases h
      · rw [matchDockerSpaceComposeAt_nil] at h; cases h
  | cons c rest ih =>
    intro prev
    have hexp : containerCommandScan prev (c :: rest) =
        (matchDockerCmdAt prev (c :: rest) ||
         matchDockerComposeHyphenAt prev (c :: rest) ||
         matchDockerSpaceComposeAt prev (c :: rest) ||
         containerCommandScan (some c) rest) := rfl
    rw [hexp]
    constructor
    · intro h
      rcases Bool.or_eq_true _ _ |>.mp h with h3 | htail
      · rcases Bool.or_eq_true _ _ |>.mp h3 with h2 | hm3
        · rcases Bool.or_eq_true _ _ |>.mp h2 with hm1 | hm2
          · exact ⟨[], c :: rest, rfl, Or.inl hm1⟩
          · exact ⟨[], c :: rest, rfl, Or.inr (Or.inl hm2)⟩
        · exact ⟨[], c :: rest, rfl, Or.inr (Or.inr hm3)⟩
      · obtain ⟨pre, post, happ, hm⟩ := (ih (some c)).mp htail
        exact ⟨c :: pre, post, by rw [happ]; rfl, by rw [lastOr_cons]; exact hm⟩
    · rintro ⟨pre, post, happ, hm⟩
      cases pre with
      | nil =>
        rw [List.nil_append] at happ
        subst happ
        rw [lastOr_nil] at hm
        rcases hm with hm | hm | hm
        · exact Bool.or_eq_true _ _ |>.mpr (Or.inl
            (Bool.or_eq_true _ _ |>.mpr (Or.inl
              (Bool.or_eq_true _ _ |>.mpr (Or.inl hm)))))
        · exact Bool.or_eq_true _ _ |>.mpr (Or.inl
            (Bool.or_eq_true _ _ |>.mpr (Or.inl
              (Bool.or_eq_true _ _ |>.mpr (Or.inr hm)))))
        · exact Bool.or_eq_true _ _ |>.mpr (Or.inl
            (Bool.or_eq_true _ _ |>.mpr (Or.inr hm)))
      | cons d pre2 =>
        rw [List.cons_append] at happ
        injection happ with hcd happ2
        subst hcd
        rw [lastOr_cons] at hm
        exact Bool.or_eq_true _ _ |>.mpr (Or.inr
          ((ih (some c)).mpr ⟨pre2, post, happ2, hm⟩))

theorem containerCommandPatternsMatch_iff (s : Str) :
    containerCommandPatternsMatch s = true ↔ dockerCommandTextOccurs s := by
  unfold containerCommandPatternsMatch dockerCommandTextOccurs
  rw [containerCommandScan_eq_true_iff]
  constructor
  · rintro ⟨pre, post, happ, hm⟩
    subst happ
    have hlast : lastOr none pre = pre.getLast? := by
      simp [lastOr, Option.or_none]
    rcases hm with h | h | h
    · rw [matchDockerCmdAt_eq_true_iff] at h
      obtain ⟨hb, sep, sub, post2, hpost, hsep, hmem, hafter⟩ := h
      refine Or.inl ⟨pre, sep, sub, post2, ?_, hsep, hmem, ?_, ?_⟩
      · rw [hpost]; simp [List.append_assoc]
      · exact (boundaryBefore_getLast_iff pre).mp (by rw [← hlast]; exact hb)
      · exact (boundaryAfter_iff post2).mp hafter
    · rw [matchDockerComposeHyphenAt_eq_true_iff] at h
      obtain ⟨hb, post2, hpost, hafter⟩ := h
      refine Or.inr (Or.inl ⟨pre, post2, ?_, ?_, ?_⟩)
      · rw [hpost]; simp [List.append_assoc]
      · exact (boundaryBefore_getLast_iff pre).mp (by rw [← hlast]; exact hb)
      · exact (boundaryAfter_iff post2).mp hafter
    · rw [matchDockerSpaceComposeAt_eq_true_iff] at h
      obtain ⟨hb, ws, post2, hpost, hne, hws, hafter⟩ := h
      refine Or.inr (Or.inr ⟨pre, ws, post2, ?_, hne, hws, ?_, ?_⟩)
      · rw [hpost]; simp [List.append_assoc]
      · exact (boundaryBefore_getLast_iff pre).mp (by rw [← hlast]; exact hb)
      · exact (boundaryAfter_iff post2).mp hafter
  · intro h
    have hlast : ∀ pre : Str, lastOr none pre = pre.getLast? := by
      intro pre; simp [lastOr, Option.or_none]
    rcases h with ⟨pre, sep, sub, post, hs, hsep, hmem, hpre, hpost⟩ |
      ⟨pre, post, hs, hpre, hpost⟩ | ⟨pre, ws, post, hs, hne, hws, hpre, hpost⟩
    · refine ⟨pre, "docker".toList ++ sep :: (sub ++ post), ?_, Or.inl ?_⟩
      · rw [hs]; simp [List.append_assoc]
      · rw [matchDockerCmdAt_eq_true_iff]
        refine ⟨?_, sep, sub, post, rfl, hsep, hmem, ?_⟩
        · rw [hlast]; exact (boundaryBefore_getLast_iff pre).mpr hpre
        · exact (boundaryAfter_iff post).mpr hpost
    · refine ⟨pre, "docker-compose".toList ++ post, ?_, Or.inr (Or.inl ?_)⟩
      · rw [hs]; simp [List.append_assoc]
      · rw [matchDockerComposeHyphenAt_eq_true_iff]
        refine ⟨?_, post, rfl, ?_⟩
        · rw [hlast]; exact (boundaryBefore_getLast_iff pre).mpr hpre
        · exact (boundaryAfter_iff post).mpr hpost
    · refine ⟨pre, "docker".toList ++ ws ++ "compose".toList ++ post, ?_,
        Or.inr (Or.inr ?_)⟩
      · rw [hs]; simp [List.append_assoc]
      · rw [matchDockerSpaceComposeAt_eq_true_iff]
        refine ⟨?_, ws, post, by simp [List.append_assoc], hne, hws, ?_⟩
        · rw [hlast]; exact (boundaryBefore_getLast_iff pre).mpr hpre
        · exact (boundaryAfter_iff post).mpr hpost

theorem not_isEmpty_iff_ne_nil (l : Str) : (!l.isEmpty) = true ↔ l ≠ [] := by
  cases l <;> simp

/-- C3: the docker-command criterion fires iff some step's lower-cased
script contains `docker` + space/hyphen + sub-command, `docker-compose`,
or `docker compose`, each with word boundaries; a script mentioning only
`dockerhub.com` leaves the job eligible. -/
theorem hasDockerCommands_word_boundary :
    (∀ j : Job, j.hasDockerCommands = true ↔
      ∃ step ∈ j.steps, step.run ≠ [] ∧
        dockerCommandTextOccurs (goToLower step.run)) ∧
    checkEligibility
      ⟨"t".toList, "t".toList, .scalar ubuntuLatest,
       [⟨[], [], "echo 'dockerhub.com'".toList⟩], none, none, 0⟩ =
      (true, []) := by
  constructor
  · intro j
    unfold Job.hasDockerCommands
    rw [List.any_eq_true]
    constructor
    · rintro ⟨step, hmem, hstep⟩
      obtain ⟨hne, hmatch⟩ := Bool.and_eq_true _ _ |>.mp hstep
      exact ⟨step, hmem, (not_isEmpty_iff_ne_nil _).mp hne,
        (containerCommandPatternsMatch_iff _).mp hmatch⟩
    · rintro ⟨step, hmem, hne, hocc⟩
      exact ⟨step, hmem, Bool.and_eq_true _ _ |>.mpr
        ⟨(not_isEmpty_iff_ne_nil _).mpr hne,
         (containerCommandPatternsMatch_iff _).mpr hocc⟩⟩
  · decide

/-- C1: a job whose runner does not resolve to exactly `"ubuntu-latest"`
(scalar or sequence element) is classified ineligible with the single
reason `"does not run on ubuntu-latest"`; no other criterion contributes
a reason. -/
theorem checkEligibility_runner_short_circuit (j : Job)
    (h : ¬ resolvesToUbuntuLatest j) :
    checkEligibility j = (false, [reasonRunner]) := by
  have hu : j.isUbuntuLatest = false := by
    cases hb : j.isUbuntuLatest
    · rfl
    · exact absurd ((isUbuntuLatest_iff j).mp hb) h
  unfold checkEligibility
  rw [hu]
  rfl

/-- Witness for C1 at a concrete job running on `windows-latest`. -/
theorem checkEligibility_runner_short_circuit_witness :
    checkEligibility
        ⟨"w".toList, "w".toList, .scalar ("windows-latest".toList),
         [⟨[], [], "docker build -t app .".toList⟩], some "postgres".toList,
         none, 0⟩ =
      (false, [reasonRunner]) :=
  checkEligibility_runner_short_circuit _ (by
    rintro (h | ⟨items, h, _⟩)
    · exact absurd h (by decide)
    · exact RunsOn.noConfusion h)

/-- C2: once the runner criterion passes, the four remaining criteria
are evaluated independently, each failing one appending exactly its own
reason, in the fixed order docker-commands, container-actions, services,
container; the job is eligible iff the reasons list is empty. -/
theorem checkEligibility_reason_accumulation (j : Job)
    (h : resolvesToUbuntuLatest j) :
    (checkEligibility j).2 =
      (if j.hasDockerCommands then [reasonDocker] else []) ++
      (if j.hasContainerActions then [reasonActions] else []) ++
      (if j.hasServices then [reasonServices] else []) ++
      (if j.hasContainer then [reasonContainer] else []) ∧
    ((checkEligibility j).1 = true ↔ (checkEligibility j).2 = []) := by
  have hu : j.isUbuntuLatest = true := (isUbuntuLatest_iff j).mpr h
  unfold checkEligibility
  rw [hu]
  cases j.hasDockerCommands <;> cases j.hasContainerActions <;>
    cases j.hasServices <;> cases j.hasContainer <;> simp

/-- Witness for C2 at a concrete ubuntu-latest job that declares both
`services:` and `container:`: the reasons accumulate in order. -/
theorem checkEligibility_reason_accumulation_witness :
    (checkEligibility
        ⟨"t".toList, "t".toList, .scalar ubuntuLatest,
         [⟨[], [], "echo hello".toList⟩], some "postgres".toList,
         some "node:18".toList, 0⟩).2 =
      [reasonServices, reasonContainer] ∧
    (checkEligibility
        ⟨"t".toList, "t".toList, .scalar ubuntuLatest,
         [⟨[], [], "echo hello".toList⟩], some "postgres".toList,
         some "node:18".toList, 0⟩).1 = false := by
  have h := checkEligibility_reason_accumulation
    ⟨"t".toList, "t".toList, .scalar ubuntuLatest,
     [⟨[], [], "echo hello".toList⟩], some "postgres".toList,
     some "node:18".toList, 0⟩ (Or.inl rfl)
  refine ⟨by rw [h.1]; decide, by decide⟩

/-- C7: the human-facing duration format: plain seconds below one
minute; minutes with leftover seconds below one hour (`"4m"` when
exact); hours with leftover minutes from one hour on (`"1h"` when
exact).  The statement decomposes the input instead of re-dividing it. -/
theorem formatDuration_cases (secs : Nat) :
    (secs < 60 → formatDuration secs = toString secs ++ "s") ∧
    (∀ q r, secs = 60 * q + r → r < 60 → 1 ≤ q → q < 60 →
      formatDuration secs =
        if r = 0 then toString q ++ "m"
        else toString q ++ "m" ++ toString r ++ "s") ∧
    (∀ hrs r, secs = 3600 * hrs + r → r < 3600 → 1 ≤ hrs →
      formatDuration secs =
        if r / 60 = 0 then toString hrs ++ "h"
        else toString hrs ++ "h" ++ toString (r / 60) ++ "m") := by
  refine ⟨?_, ?_, ?_⟩
  · intro hlt
    unfold formatDuration
    rw [if_pos hlt]
  · intro q r hdecomp hr hq1 hq60
    have hge : ¬ secs < 60 := by omega
    have hlt : secs < 3600 := by omega
    have hdiv : secs / 60 = q := by omega
    have hmod : secs % 60 = r := by omega
    unfold formatDuration
    rw [if_neg hge, if_pos hlt, hdiv, hmod]
  · intro hrs r hdecomp hr hh1
    have hge : ¬ secs < 60 := by omega
    have hge2 : ¬ secs < 3600 := by omega
    have hdiv : secs / 3600 = hrs := by omega
    have hmod : (secs / 60) % 60 = r / 60 := by omega
    unfold formatDuration
    rw [if_neg hge, if_neg hge2, hdiv, hmod]

/-- Witness for C7 at 45 seconds, 4 minutes 30, and 1 hour 12 minutes. -/
theorem formatDuration_cases_witness :
    formatDuration 45 = "45s" ∧ formatDuration 270 = "4m30s" ∧
    formatDuration 4350 = "1h12m" := by
  have h1 := (formatDuration_cases 45).1 (by decide)
  have h2 := (formatDuration_cases 270).2.1 4 30 (by decide) (by decide)
    (by decide) (by decide)
  have h3 := (formatDuration_cases 4350).2.2 1 750 (by decide) (by decide)
    (by decide)
  refine ⟨by rw [h1]; rfl, by rw [h2]; rfl, by rw [h3]; rfl⟩

theorem goContains_iff (s sub : Str) : goContains s sub = true ↔ sub <:+: s := by
  induction s with
  | nil =>
    rw [show goContains [] sub = (sub.isPrefixOf [] || false) from rfl]
    simp [List.isPrefixOf_iff_prefix]
  | cons c cs ih =>
    rw [show goContains (c :: cs) sub =
        (sub.isPrefixOf (c :: cs) || goContains cs sub) from rfl]
    rw [List.infix_cons_iff]
    simp [List.isPrefixOf_iff_prefix, ih]

theorem goContains_false_mono {sub t s : Str} (hts : t <:+: s)
    (hs : goContains s sub = false) : goContains t sub = false := by
  cases hc : goContains t sub
  · rfl
  · have := ((goContains_iff t sub).mp hc).trans hts
    rw [(goContains_iff s sub).mpr this] at hs
    cases hs

theorem dropWhile_eq_self_of_head {α : Type} {p : α → Bool} {l : List α}
    (h : ∀ c, l.head? = some c → p c = false) : l.dropWhile p = l := by
  cases l with
  | nil => rfl
  | cons c cs => simp [List.dropWhile, h c rfl]

theorem head?_dropWhile_false {α : Type} (p : α → Bool) (l : List α) :
    ∀ c, (l.dropWhile p).head? = some c → p c = false := by
  induction l with
  | nil => intro c h; cases h
  | cons a as ih =>
    intro c h
    by_cases hp : p a = true
    · rw [List.dropWhile_cons_of_pos hp] at h
      exact ih c h
    · rw [List.dropWhile_cons_of_neg hp] at h
      cases h
      exact Bool.eq_false_iff.mpr hp

theorem head_dropWhile_not {α : Type} {p : α → Bool} {l rest : List α} {c : α}
    (h : l.dropWhile p = c :: rest) : p c = false :=
  head?_dropWhile_false p l c (by rw [h]; rfl)

theorem head?_mem_str {l : Str} {c : Char} (h : l.head? = some c) : c ∈ l := by
  cases l with
  | nil => cases h
  | cons a as => cases h; exact List.mem_cons_self ..

theorem trimSpace_of_no_space {s : Str}
    (h : ∀ c ∈ s, goIsSpace c = false) : trimSpace s = s := by
  unfold trimSpace
  rw [dropWhile_eq_self_of_head (fun c hc => h c (head?_mem_str hc)),
    dropWhile_eq_self_of_head
      (fun c hc => h c (List.mem_reverse.mp (head?_mem_str hc))),
    List.reverse_reverse]

theorem trimSpace_isInfix (s : Str) : trimSpace s <:+: s := by
  unfold trimSpace
  have h1 : s.dropWhile goIsSpace <:+ s := List.dropWhile_suffix _
  have h2 : ((s.dropWhile goIsSpace).reverse.dropWhile goIsSpace).reverse <+:
      s.dropWhile goIsSpace := by
    rw [← List.reverse_suffix, List.reverse_reverse]
    exact List.dropWhile_suffix _
  exact h2.isInfix.trans h1.isInfix

theorem mem_trimSpace {c : Char} {s : Str} (h : c ∈ trimSpace s) : c ∈ s := by
  obtain ⟨l1, l2, hsplit⟩ := trimSpace_isInfix s
  rw [← hsplit]
  simp [h]

theorem head?_isPrefix {l₁ l₂ : Str} (h : l₁ <+: l₂) {c : Char}
    (hc : l₁.head? = some c) : l₂.head? = some c := by
  obtain ⟨rest, hrest⟩ := h
  cases l₁ with
  | nil => cases hc
  | cons a as => cases hc; rw [← hrest]; rfl

theorem trimSpace_head_no_space (s : Str) :
    ∀ c, (trimSpace s).head? = some c → goIsSpace c = false := by
  intro c hc
  have hpre : trimSpace s <+: s.dropWhile goIsSpace := by
    unfold trimSpace
    rw [← List.reverse_suffix, List.reverse_reverse]
    exact List.dropWhile_suffix _
  exact head?_dropWhile_false goIsSpace s c (head?_isPrefix hpre hc)

theorem trimSpace_reverse_head_no_space (s : Str) :
    ∀ c, (trimSpace s).reverse.head? = some c → goIsSpace c = false := by
  intro c hc
  unfold trimSpace at hc
  rw [List.reverse_reverse] at hc
  exact head?_dropWhile_false goIsSpace _ c hc

theorem trimSpace_idempotent (s : Str) :
    trimSpace (trimSpace s) = trimSpace s := by
  have h1 : (trimSpace s).dropWhile goIsSpace = trimSpace s :=
    dropWhile_eq_self_of_head (trimSpace_head_no_space s)
  show (((trimSpace s).dropWhile goIsSpace).reverse.dropWhile goIsSpace).reverse
      = trimSpace s
  rw [h1, dropWhile_eq_self_of_head (trimSpace_reverse_head_no_space s),
    List.reverse_reverse]

theorem length_pos_of_ne_nil {α : Type} {l : List α} (h : l ≠ []) :
    1 ≤ l.length := by
  cases l with
  | nil => exact absurd rfl h
  | cons c cs => simp

theorem splitOnLitF_stable (sep : Str) (hsep : sep ≠ []) :
    ∀ f1 f2 s, s.length ≤ f1 → s.length ≤ f2 →
      splitOnLitF sep f1 s = splitOnLitF sep f2 s := by
  intro f1
  induction f1 with
  | zero =>
    intro f2 s h1 h2
    have hs : s = [] := List.length_eq_zero.mp (Nat.le_zero.mp h1)
    subst hs
    cases f2 <;> rfl
  | succ f1 ih =>
    intro f2 s h1 h2
    cases s with
    | nil => cases f2 <;> rfl
    | cons c cs =>
      cases f2 with
      | zero => simp at h2
      | succ g2 =>
        have hdlen : ((c :: cs).drop sep.length).length ≤ cs.length := by
          rw [List.length_drop]
          have := length_pos_of_ne_nil hsep
          simp only [List.length_cons]
          omega
        have hcs1 : cs.length ≤ f1 := by simpa using h1
        have hcs2 : cs.length ≤ g2 := by simpa using h2
        simp only [splitOnLitF]
        by_cases hp : sep.isPrefixOf (c :: cs)
        · simp only [hp, if_true]
          rw [ih g2 _ (hdlen.trans hcs1) (hdlen.trans hcs2)]
        · rw [if_neg hp, if_neg hp, ih g2 cs hcs1 hcs2]

theorem splitOnLit_eq_F (sep : Str) (hsep : sep ≠ []) (s : Str) :
    splitOnLit sep s = splitOnLitF sep s.length s := by
  cases sep with
  | nil => exact absurd rfl hsep
  | cons a rest => rfl

theorem splitOnLitF_ne_nil (sep : Str) :
    ∀ fuel s, splitOnLitF sep fuel s ≠ [] := by
  intro fuel
  induction fuel with
  | zero =>
    intro s
    cases s <;> simp [splitOnLitF]
  | succ f ih =>
    intro s
    cases s with
    | nil => simp [splitOnLitF]
    | cons c cs =>
      simp only [splitOnLitF]
      by_cases hp : sep.isPrefixOf (c :: cs)
      · simp [hp]
      · simp only [hp, if_false]
        cases h : splitOnLitF sep f cs <;> simp

theorem splitOnLit_ne_nil (sep s : Str) : splitOnLit sep s ≠ [] := by
  cases sep with
  | nil => simp [splitOnLit]
  | cons a rest => exact splitOnLitF_ne_nil (a :: rest) s.length s

theorem isPrefixOf_false_of_prefix_trans {sep l s : Str} (hls : l <+: s)
    (hp : sep.isPrefixOf s = false) : sep.isPrefixOf l = false := by
  cases hq : sep.isPrefixOf l
  · rfl
  · rw [List.isPrefixOf_iff_prefix.mpr
      ((List.isPrefixOf_iff_prefix.mp hq).trans hls)] at hp
    cases hp

theorem splitOnLitF_pieces (sep : Str) (hsep : sep ≠ []) :
    ∀ fuel s, s.length ≤ fuel →
      (∀ t ∈ splitOnLitF sep fuel s, t <:+: s ∧ goContains t sep = false) ∧
      (∀ t ts, splitOnLitF sep fuel s = t :: ts → t <+: s) := by
  have hbase : goContains [] sep = false := by
    cases sep with
    | nil => exact absurd rfl hsep
    | cons a r => rfl
  intro fuel
  induction fuel with
  | zero =>
    intro s h1
    have hs : s = [] := List.length_eq_zero.mp (Nat.le_zero.mp h1)
    subst hs
    refine ⟨?_, ?_⟩
    · intro t ht
      simp only [splitOnLitF, List.mem_singleton] at ht
      subst ht
      exact ⟨List.infix_refl [], hbase⟩
    · intro t ts hts
      simp only [splitOnLitF] at hts
      cases hts
      exact List.prefix_refl []
  | succ f ih =>
    intro s h1
    cases s with
    | nil =>
      refine ⟨?_, ?_⟩
      · intro t ht
        simp only [splitOnLitF, List.mem_singleton] at ht
        subst ht
        exact ⟨List.infix_refl [], hbase⟩
      · intro t ts hts
        simp only [splitOnLitF] at hts
        cases hts
        exact List.prefix_refl []
    | cons c cs =>
      have hcs : cs.length ≤ f := by simpa using h1
      have hdlen : ((c :: cs).drop sep.length).length ≤ f := by
        rw [List.length_drop]
        have := length_pos_of_ne_nil hsep
        simp only [List.length_cons]
        omega
      by_cases hp : sep.isPrefixOf (c :: cs)
      · have heq : splitOnLitF sep (f + 1) (c :: cs) =
            [] :: splitOnLitF sep f ((c :: cs).drop sep.length) := by
          simp [splitOnLitF, hp]
        refine ⟨?_, ?_⟩
        · intro t ht
          rw [heq] at ht
          rcases List.mem_cons.mp ht with h | h
          · subst h
            exact ⟨List.nil_infix, hbase⟩
          · obtain ⟨hinf, hfree⟩ := (ih _ hdlen).1 t h
            exact ⟨hinf.trans (List.drop_suffix _ _).isInfix, hfree⟩
        · intro t ts hts
          rw [heq] at hts
          cases hts
          exact List.nil_prefix
      · rcases hsplit : splitOnLitF sep f cs with _ | ⟨t0, ts0⟩
        · exact absurd hsplit (splitOnLitF_ne_nil sep f cs)
        · have heq : splitOnLitF sep (f + 1) (c :: cs) =
              (c :: t0) :: ts0 := by
            simp [splitOnLitF, hp, hsplit]
          have ht0 := (ih cs hcs).2 t0 ts0 hsplit
          have ht0pre : c :: t0 <+: c :: cs := by
            obtain ⟨r, hr⟩ := ht0
            exact ⟨r, by rw [← hr]; rfl⟩
          have hpBool : sep.isPrefixOf (c :: cs) = false :=
            Bool.eq_false_iff.mpr hp
          refine ⟨?_, ?_⟩
          · intro t ht
            rw [heq] at ht
            rcases List.mem_cons.mp ht with h | h
            · subst h
              refine ⟨ht0pre.isInfix, ?_⟩
              rw [show goContains (c :: t0) sep =
                  (sep.isPrefixOf (c :: t0) || goContains t0 sep) from rfl]
              rw [isPrefixOf_false_of_prefix_trans ht0pre hpBool]
              have := (ih cs hcs).1 t0 (by rw [hsplit]; exact List.mem_cons_self ..)
              rw [this.2]
              rfl
            · obtain ⟨hinf, hfree⟩ := (ih cs hcs).1 t (by rw [hsplit]; exact List.mem_cons_of_mem _ h)
              exact ⟨hinf.trans (List.infix_cons (List.infix_refl cs)), hfree⟩
          · intro t ts hts
            rw [heq] at hts
            injection hts with h1 h2
            subst h1
            exact ht0pre

theorem splitOnLit_pieces (sep s : Str) (hsep : sep ≠ []) :
    ∀ t ∈ splitOnLit sep s, t <:+: s ∧ goContains t sep = false := by
  rw [splitOnLit_eq_F sep hsep]
  exact (splitOnLitF_pieces sep hsep s.length s (Nat.le_refl _)).1

theorem splitOnLitF_no_occurrence (sep : Str) (hsep : sep ≠ []) :
    ∀ fuel s, s.length ≤ fuel → goContains s sep = false →
      splitOnLitF sep fuel s = [s] := by
  intro fuel
  induction fuel with
  | zero =>
    intro s h1 _
    have hs : s = [] := List.length_eq_zero.mp (Nat.le_zero.mp h1)
    subst hs
    rfl
  | succ f ih =>
    intro s h1 hno
    cases s with
    | nil => rfl
    | cons c cs =>
      have hcs : cs.length ≤ f := by simpa using h1
      rw [show goContains (c :: cs) sep =
          (sep.isPrefixOf (c :: cs) || goContains cs sep) from rfl] at hno
      obtain ⟨hp, hrest⟩ := Bool.or_eq_false_iff.mp hno
      simp [splitOnLitF, hp, ih cs hcs hrest]

theorem splitOnLit_no_occurrence (sep s : Str) (hsep : sep ≠ [])
    (hno : goContains s sep = false) : splitOnLit sep s = [s] := by
  rw [splitOnLit_eq_F sep hsep]
  exact splitOnLitF_no_occurrence sep hsep s.length s (Nat.le_refl _) hno

theorem takeWhile_append_sat {p : Char → Bool} :
    ∀ {l1 l2 : Str}, (∀ c ∈ l1, p c = true) →
      (l1 ++ l2).takeWhile p = l1 ++ l2.takeWhile p := by
  intro l1
  induction l1 with
  | nil => intro l2 _; rfl
  | cons a as ih =>
    intro l2 h
    rw [List.cons_append, List.takeWhile_cons_of_pos (h a (List.mem_cons_self ..)),
      ih (fun c hc => h c (List.mem_cons_of_mem a hc))]
    rfl

theorem dropWhile_append_sat {p : Char → Bool} :
    ∀ {l1 l2 : Str}, (∀ c ∈ l1, p c = true) →
      (l1 ++ l2).dropWhile p = l2.dropWhile p := by
  intro l1
  induction l1 with
  | nil => intro l2 _; rfl
  | cons a as ih =>
    intro l2 h
    rw [List.cons_append, List.dropWhile_cons_of_pos (h a (List.mem_cons_self ..)),
      ih (fun c hc => h c (List.mem_cons_of_mem a hc))]

theorem goFieldsF_stable :
    ∀ f1 f2 s, s.length ≤ f1 → s.length ≤ f2 →
      goFieldsF f1 s = goFieldsF f2 s := by
  intro f1
  induction f1 with
  | zero =>
    intro f2 s h1 h2
    have hs : s = [] := List.length_eq_zero.mp (Nat.le_zero.mp h1)
    subst hs
    cases f2 <;> rfl
  | succ f1 ih =>
    intro f2 s h1 h2
    cases s with
    | nil => cases f2 <;> rfl
    | cons c rest =>
      cases f2 with
      | zero => simp at h2
      | succ g2 =>
        have hr1 : rest.length ≤ f1 := by simpa using h1
        have hr2 : rest.length ≤ g2 := by simpa using h2
        have hdrop : (rest.dropWhile (fun d => !goIsSpace d)).length ≤
            rest.length := (List.dropWhile_suffix _).length_le
        simp only [goFieldsF]
        by_cases hc : goIsSpace c
        · rw [if_pos hc, if_pos hc, ih g2 rest hr1 hr2]
        · rw [if_neg hc, if_neg hc,
            ih g2 _ (hdrop.trans hr1) (hdrop.trans hr2)]

theorem goFieldsF_pieces :
    ∀ fuel s, s.length ≤ fuel → ∀ t ∈ goFieldsF fuel s,
      t ≠ [] ∧ (∀ c ∈ t, goIsSpace c = false) ∧ t <:+: s := by
  intro fuel
  induction fuel with
  | zero =>
    intro s h1 t ht
    have hs : s = [] := List.length_eq_zero.mp (Nat.le_zero.mp h1)
    subst hs
    cases ht
  | succ f ih =>
    intro s h1 t ht
    cases s with
    | nil => cases ht
    | cons c rest =>
      have hr : rest.length ≤ f := by simpa using h1
      have hdrop : (rest.dropWhile (fun d => !goIsSpace d)).length ≤
          rest.length := (List.dropWhile_suffix _).length_le
      simp only [goFieldsF] at ht
      by_cases hc : goIsSpace c
      · rw [if_pos hc] at ht
        obtain ⟨hne, hfree, hinf⟩ := ih rest hr t ht
        exact ⟨hne, hfree, hinf.trans (List.infix_cons (List.infix_refl rest))⟩
      · rw [if_neg hc] at ht
        rcases List.mem_cons.mp ht with h | h
        · subst h
          refine ⟨by simp, ?_, ?_⟩
          · intro d hd
            rcases List.mem_cons.mp hd with h | h
            · subst h; exact Bool.eq_false_iff.mpr hc
            · have := List.mem_takeWhile_imp h
              simpa using this
          · have : c :: rest.takeWhile (fun d => !goIsSpace d) <+: c :: rest := by
              obtain ⟨r, hr2⟩ := List.takeWhile_prefix
                (p := fun d => !goIsSpace d) (l := rest)
              exact ⟨r, by rw [List.cons_append, hr2]⟩
            exact this.isInfix
        · obtain ⟨hne, hfree, hinf⟩ := ih _ (hdrop.trans hr) t h
          exact ⟨hne, hfree,
            (hinf.trans (List.dropWhile_suffix _).isInfix).trans
              (List.infix_cons (List.infix_refl rest))⟩

theorem goFields_pieces (s : Str) :
    ∀ t ∈ goFields s, t ≠ [] ∧ (∀ c ∈ t, goIsSpace c = false) ∧ t <:+: s :=
  goFieldsF_pieces s.length s (Nat.le_refl _)

theorem goFieldsF_nil (fuel : Nat) : goFieldsF fuel [] = [] := by
  cases fuel <;> rfl

theorem goFields_single {t : Str} (h1 : t ≠ [])
    (h2 : ∀ c ∈ t, goIsSpace c = false) : goFields t = [t] := by
  cases t with
  | nil => exact absurd rfl h1
  | cons c rest =>
    show goFieldsF (rest.length + 1) (c :: rest) = [c :: rest]
    simp only [goFieldsF]
    rw [if_neg (by rw [h2 c (List.mem_cons_self ..)]; exact Bool.false_ne_true),
      List.takeWhile_eq_self_iff.mpr
        (fun d hd => by rw [h2 d (List.mem_cons_of_mem c hd)]; rfl),
      List.dropWhile_eq_nil_iff.mpr
        (fun d hd => by rw [h2 d (List.mem_cons_of_mem c hd)]; rfl),
      goFieldsF_nil]

theorem goFieldsF_token_append :
    ∀ (fuel : Nat) (x tail : Str), x ≠ [] →
      (∀ c ∈ x, goIsSpace c = false) →
      (x ++ ' ' :: tail).length ≤ fuel →
      goFieldsF fuel (x ++ ' ' :: tail) = x :: goFieldsF tail.length tail := by
  intro fuel x tail h1 h2 hlen
  cases x with
  | nil => exact absurd rfl h1
  | cons c xs =>
    cases fuel with
    | zero => simp at hlen
    | succ f =>
      have hc : goIsSpace c = false := h2 c (List.mem_cons_self ..)
      have hxs : ∀ d ∈ xs, (fun d => !goIsSpace d) d = true := by
        intro d hd
        show (!goIsSpace d) = true
        rw [h2 d (List.mem_cons_of_mem c hd)]
        rfl
      show goFieldsF (f + 1) (c :: (xs ++ ' ' :: tail)) = _
      simp only [goFieldsF]
      rw [if_neg (by rw [hc]; exact Bool.false_ne_true)]
      rw [takeWhile_append_sat hxs, dropWhile_append_sat hxs,
        List.takeWhile_cons_of_neg (by decide),
        List.dropWhile_cons_of_neg (by decide), List.append_nil]
      cases f with
      | zero =>
        exfalso
        have : (c :: (xs ++ ' ' :: tail)).length ≤ 1 := by
          simpa using hlen
        simp [List.length_append] at this
      | succ g =>
        simp only [goFieldsF]
        rw [if_pos (by decide : goIsSpace ' ' = true)]
        rw [goFieldsF_stable g tail.length tail
          (by
            have : (c :: (xs ++ ' ' :: tail)).length ≤ g + 2 := hlen
            simp [List.length_append] at this
            omega)
          (Nat.le_refl _)]

theorem goFields_token_append (x tail : Str) (h1 : x ≠ [])
    (h2 : ∀ c ∈ x, goIsSpace c = false) :
    goFields (x ++ ' ' :: tail) = x :: goFields tail :=
  goFieldsF_token_append (x ++ ' ' :: tail).length x tail h1 h2 (Nat.le_refl _)

theorem goFields_joinSpace :
    ∀ toks : List Str,
      (∀ t ∈ toks, t ≠ [] ∧ ∀ c ∈ t, goIsSpace c = false) →
      goFields (joinSpace toks) = toks := by
  intro toks
  induction toks with
  | nil => intro _; rfl
  | cons x xs ih =>
    intro h
    cases xs with
    | nil =>
      show goFields x = [x]
      exact goFields_single (h x (List.mem_cons_self ..)).1
        (h x (List.mem_cons_self ..)).2
    | cons y ys =>
      show goFields (x ++ ' ' :: joinSpace (y :: ys)) = x :: y :: ys
      rw [goFields_token_append x _ (h x (List.mem_cons_self ..)).1
        (h x (List.mem_cons_self ..)).2,
        ih (fun t ht => h t (List.mem_cons_of_mem x ht))]

theorem goContains_singleton_false {a : Char} {t : Str} (h : a ∉ t) :
    goContains t [a] = false := by
  cases hc : goContains t [a]
  · rfl
  · obtain ⟨l1, l2, hsplit⟩ := (goContains_iff t [a]).mp hc
    exact absurd (by rw [← hsplit]; simp) h

theorem contains_eq_false_of_not_mem {l : List Str} {t : Str} (h : t ∉ l) :
    l.contains t = false := by
  cases hb : l.contains t
  · rfl
  · exact absurd (List.elem_iff.mp hb) h

theorem splitCommandLine_eq_foldl (line : Str) :
    splitCommandLine line = commandSeparators.foldl splitStep [line] := rfl

theorem splitStep_singleton_no_sep {line sep : Str} (hsep : sep ≠ [])
    (hne : line ≠ []) (htrim : trimSpace line = line)
    (hno : goContains line sep = false) :
    splitStep [line] sep = [line] := by
  unfold splitStep
  rw [show ([line] : List Str).flatMap
      (fun part => ((splitOnLit sep part).map trimSpace).filter
        (fun s => !s.isEmpty)) =
      ((splitOnLit sep line).map trimSpace).filter (fun s => !s.isEmpty) by
    simp]
  rw [splitOnLit_no_occurrence sep line hsep hno]
  simp [htrim, hne]

theorem foldl_splitStep_no_sep {line : Str} (hne : line ≠ [])
    (htrim : trimSpace line = line) :
    ∀ seps : List Str,
      (∀ sep ∈ seps, sep ≠ [] ∧ goContains line sep = false) →
      seps.foldl splitStep [line] = [line] := by
  intro seps
  induction seps with
  | nil => intro _; rfl
  | cons sep rest ih =>
    intro h
    rw [List.foldl_cons,
      splitStep_singleton_no_sep (h sep (List.mem_cons_self ..)).1 hne htrim
        (h sep (List.mem_cons_self ..)).2,
      ih (fun s hs => h s (List.mem_cons_of_mem sep hs))]

theorem splitCommandLine_no_sep {line : Str} (hne : line ≠ [])
    (htrim : trimSpace line = line)
    (hno : ∀ sep ∈ commandSeparators, goContains line sep = false) :
    splitCommandLine line = [line] := by
  rw [splitCommandLine_eq_foldl]
  have hall : ∀ sep ∈ commandSeparators, sep ≠ [] := by decide
  exact foldl_splitStep_no_sep hne htrim commandSeparators
    (fun sep hs => ⟨hall sep hs, hno sep hs⟩)

theorem foldl_splitStep_derived :
    ∀ (seps : List Str) (parts : List Str),
      (∀ sep ∈ seps, sep ≠ []) →
      ∀ q ∈ seps.foldl splitStep parts,
        ∃ p ∈ parts, q <:+: p ∧
          ∀ sep ∈ seps, goContains q sep = false := by
  intro seps
  induction seps with
  | nil =>
    intro parts _ q hq
    exact ⟨q, hq, List.infix_refl q, by simp⟩
  | cons sep rest ih =>
    intro parts hseps q hq
    rw [List.foldl_cons] at hq
    obtain ⟨p', hp', hinf, hfree⟩ := ih (splitStep parts sep)
      (fun s hs => hseps s (List.mem_cons_of_mem sep hs)) q hq
    unfold splitStep at hp'
    rw [List.mem_flatMap] at hp'
    obtain ⟨p, hp, hp'mem⟩ := hp'
    rw [List.mem_filter, List.mem_map] at hp'mem
    obtain ⟨⟨piece, hpiece, hp'eq⟩, _⟩ := hp'mem
    have hsepne : sep ≠ [] := hseps sep (List.mem_cons_self ..)
    obtain ⟨hpieceinf, hpiecefree⟩ := splitOnLit_pieces sep p hsepne piece hpiece
    have hp'inf : p' <:+: p := by
      rw [← hp'eq]
      exact (trimSpace_isInfix piece).trans hpieceinf
    refine ⟨p, hp, hinf.trans hp'inf, ?_⟩
    intro s hs
    rcases List.mem_cons.mp hs with h | h
    · subst h
      have hp'free : goContains p' s = false := by
        rw [← hp'eq]
        exact goContains_false_mono (trimSpace_isInfix piece) hpiecefree
      exact goContains_false_mono hinf hp'free
    · exact hfree s h

theorem splitCommandLine_derived {line : Str} :
    ∀ q ∈ splitCommandLine line,
      q <:+: line ∧ ∀ sep ∈ commandSeparators, goContains q sep = false := by
  intro q hq
  rw [splitCommandLine_eq_foldl] at hq
  obtain ⟨p, hp, hinf, hfree⟩ := foldl_splitStep_derived commandSeparators
    [line] (by decide) q hq
  rw [List.mem_singleton] at hp
  subst hp
  exact ⟨hinf, hfree⟩

theorem isEmpty_false_of_ne_nil {l : Str} (h : l ≠ []) : l.isEmpty = false := by
  cases l with
  | nil => exact absurd rfl h
  | cons c cs => rfl

theorem extractCommandFromPart_shape {part t : Str}
    (h : extractCommandFromPart part = t) (hne : t ≠ []) :
    (∀ c ∈ t, goIsSpace c = false) ∧ t ∉ commandWrapperTokens ∧
      t <:+: part := by
  simp only [extractCommandFromPart] at h
  by_cases h1 : (trimSpace part).isEmpty = true
  · rw [if_pos h1] at h
    exact absurd h.symm hne
  rw [if_neg h1] at h
  by_cases h2 : (goFields (trimSpace part)).isEmpty = true
  · rw [if_pos h2] at h
    exact absurd h.symm hne
  rw [if_neg h2] at h
  by_cases h3 : ((goFields (trimSpace part)).dropWhile
      (fun f => goContains f ['='])).isEmpty = true
  · rw [if_pos h3] at h
    exact absurd h.symm hne
  rw [if_neg h3] at h
  by_cases h4 : (goFields (joinSpace ((goFields (trimSpace part)).dropWhile
      (fun f => goContains f ['='])))).isEmpty = true
  · rw [if_pos h4] at h
    exact absurd h.symm hne
  rw [if_neg h4] at h
  have hRshape : ∀ r ∈ (goFields (trimSpace part)).dropWhile
      (fun f => goContains f ['=']), r ≠ [] ∧ ∀ c ∈ r, goIsSpace c = false := by
    intro r hr
    have hrF : r ∈ goFields (trimSpace part) :=
      (List.dropWhile_suffix _).subset hr
    obtain ⟨ha, hb, _⟩ := goFields_pieces (trimSpace part) r hrF
    exact ⟨ha, hb⟩
  have hF2 : goFields (joinSpace ((goFields (trimSpace part)).dropWhile
      (fun f => goContains f ['=']))) =
      (goFields (trimSpace part)).dropWhile (fun f => goContains f ['=']) :=
    goFields_joinSpace _ hRshape
  rw [hF2] at h
  rcases hD : ((goFields (trimSpace part)).dropWhile
      (fun f => goContains f ['='])).dropWhile
      (fun f => commandWrapperTokens.contains f) with _ | ⟨cmd, tl⟩
  · rw [hD] at h
    exact absurd h.symm hne
  · rw [hD] at h
    subst h
    have hnw : commandWrapperTokens.contains cmd = false :=
      head_dropWhile_not hD
    have hmemR : cmd ∈ (goFields (trimSpace part)).dropWhile
        (fun f => goContains f ['=']) := by
      have hmemD : cmd ∈ ((goFields (trimSpace part)).dropWhile
          (fun f => goContains f ['='])).dropWhile
          (fun f => commandWrapperTokens.contains f) := by
        rw [hD]
        exact List.mem_cons_self ..
      exact (List.dropWhile_suffix _).subset hmemD
    have hmemF : cmd ∈ goFields (trimSpace part) :=
      (List.dropWhile_suffix _).subset hmemR
    obtain ⟨_, hfree, hinf⟩ := goFields_pieces (trimSpace part) cmd hmemF
    refine ⟨hfree, ?_, hinf.trans (trimSpace_isInfix part)⟩
    intro hm
    rw [show commandWrapperTokens.contains cmd = List.elem cmd commandWrapperTokens
      from rfl, List.elem_iff.mpr hm] at hnw
    cases hnw

theorem extractCommandFromPart_token {t : Str} (h1 : t ≠ [])
    (h2 : ∀ c ∈ t, goIsSpace c = false)
    (h6 : goContains t ['='] = false)
    (h4 : t ∉ commandWrapperTokens) :
    extractCommandFromPart t = t := by
  have htrim : trimSpace t = t := trimSpace_of_no_space h2
  have hfe : goFields t = [t] := goFields_single h1 h2
  have hie : t.isEmpty = false := isEmpty_false_of_ne_nil h1
  have hdw1 : List.dropWhile (fun f => goContains f ['=']) [t] = [t] := by
    simp [List.dropWhile_cons, h6]
  have hc4 : commandWrapperTokens.contains t = false :=
    contains_eq_false_of_not_mem h4
  have hdw2 : List.dropWhile (fun f => commandWrapperTokens.contains f) [t]
      = [t] :=
    @List.dropWhile_cons_of_neg Str (fun f => commandWrapperTokens.contains f)
      t [] (fun hx => Bool.false_ne_true (hc4 ▸ hx))
  have hjoin : joinSpace [t] = t := rfl
  simp only [extractCommandFromPart, htrim, hfe, hie, Bool.false_eq_true,
    if_false, List.isEmpty_cons, hdw1, hjoin, hdw2]

theorem extractCommands_token_shape {script t : Str}
    (h : t ∈ extractCommands script) :
    t ≠ [] ∧ (∀ c ∈ t, goIsSpace c = false) ∧
      (∀ sep ∈ commandSeparators, goContains t sep = false) ∧
      t ∉ commandWrapperTokens := by
  simp only [extractCommands, List.mem_flatMap] at h
  obtain ⟨raw, _, ht⟩ := h
  by_cases hb1 : (trimSpace raw).isEmpty = true
  · rw [if_pos hb1] at ht; cases ht
  rw [if_neg hb1] at ht
  by_cases hb2 : (['#'] : Str).isPrefixOf (trimSpace raw) = true
  · rw [if_pos hb2] at ht; cases ht
  rw [if_neg hb2] at ht
  by_cases hb3 : ("#!".toList : Str).isPrefixOf (trimSpace raw) = true
  · rw [if_pos hb3] at ht; cases ht
  rw [if_neg hb3] at ht
  rw [List.mem_flatMap] at ht
  obtain ⟨part, hpart, ht2⟩ := ht
  by_cases hb4 : (extractCommandFromPart part).isEmpty = true
  · rw [if_pos hb4] at ht2; cases ht2
  rw [if_neg hb4] at ht2
  rw [List.mem_singleton] at ht2
  subst ht2
  have hneT : extractCommandFromPart part ≠ [] := by
    intro hx
    rw [hx] at hb4
    exact hb4 rfl
  obtain ⟨hfree, hnw, hinf⟩ := extractCommandFromPart_shape rfl hneT
  obtain ⟨hinfLine, hsepfree⟩ := splitCommandLine_derived part hpart
  refine ⟨hneT, hfree, ?_, hnw⟩
  intro sep hs
  exact goContains_false_mono hinf (hsepfree sep hs)

theorem extractCommands_single_token {t : Str} (h1 : t ≠ [])
    (h2 : ∀ c ∈ t, goIsSpace c = false)
    (h3 : ∀ sep ∈ commandSeparators, goContains t sep = false)
    (h4 : t ∉ commandWrapperTokens)
    (h5 : (['#'] : Str).isPrefixOf t = false)
    (h6 : goContains t ['='] = false) :
    extractCommands t = [t] := by
  have hnl : goContains t ['\n'] = false :=
    goContains_singleton_false (fun hmem => absurd (h2 '\n' hmem) (by decide))
  have htrim : trimSpace t = t := trimSpace_of_no_space h2
  have h5b : ("#!".toList : Str).isPrefixOf t = false := by
    cases hb : ("#!".toList : Str).isPrefixOf t
    · rfl
    · have hpre2 := List.isPrefixOf_iff_prefix.mp hb
      have hpre1 : (['#'] : Str) <+: t :=
        List.IsPrefix.trans ⟨['!'], rfl⟩ hpre2
      rw [List.isPrefixOf_iff_prefix.mpr hpre1] at h5
      cases h5
  unfold extractCommands
  rw [splitOnLit_no_occurrence ['\n'] t (by decide) hnl]
  rw [show ([t] : List Str).flatMap (fun rawLine =>
      let line := trimSpace rawLine
      if line.isEmpty then []
      else if (['#'] : Str).isPrefixOf line then []
      else if ("#!".toList : Str).isPrefixOf line then []
      else (splitCommandLine line).flatMap (fun part =>
        let cmd := extractCommandFromPart part
        if cmd.isEmpty then [] else [cmd])) =
      (let line := trimSpace t
      if line.isEmpty then []
      else if (['#'] : Str).isPrefixOf line then []
      else if ("#!".toList : Str).isPrefixOf line then []
      else (splitCommandLine line).flatMap (fun part =>
        let cmd := extractCommandFromPart part
        if cmd.isEmpty then [] else [cmd])) by simp]
  simp only [htrim]
  rw [if_neg (by rw [isEmpty_false_of_ne_nil h1]; exact Bool.false_ne_true),
    if_neg (by rw [h5]; exact Bool.false_ne_true),
    if_neg (by rw [h5b]; exact Bool.false_ne_true),
    splitCommandLine_no_sep h1 htrim h3]
  simp only [List.flatMap_cons, List.flatMap_nil, List.append_nil]
  rw [extractCommandFromPart_token h1 h2 h6 h4,
    if_neg (by rw [isEmpty_false_of_ne_nil h1]; exact Bool.false_ne_true)]

theorem mem_goContains_singleton {a : Char} {t : Str} (h : a ∈ t) :
    goContains t [a] = true := by
  obtain ⟨l1, l2, hsplit⟩ := List.append_of_mem h
  exact (goContains_iff t [a]).mpr ⟨l1, l2, by rw [hsplit]; simp⟩

theorem getLastD_irrel {l : List Str} (h : l ≠ []) (d1 d2 : Str) :
    l.getLastD d1 = l.getLastD d2 := by
  cases l with
  | nil => exact absurd rfl h
  | cons a tl => rw [List.getLastD_cons, List.getLastD_cons]

theorem splitOnLitF_len2_of_contains {a : Char} :
    ∀ fuel s, s.length ≤ fuel → goContains s [a] = true →
      2 ≤ (splitOnLitF [a] fuel s).length := by
  intro fuel
  induction fuel with
  | zero =>
    intro s h1 hc
    have hs : s = [] := List.length_eq_zero.mp (Nat.le_zero.mp h1)
    subst hs
    cases hc
  | succ f ih =>
    intro s h1 hc
    cases s with
    | nil => cases hc
    | cons c cs =>
      have hr : cs.length ≤ f := by simpa using h1
      by_cases hp : ([a] : Str).isPrefixOf (c :: cs) = true
      · have heq : splitOnLitF [a] (f + 1) (c :: cs) =
            [] :: splitOnLitF [a] f ((c :: cs).drop 1) := by
          simp [splitOnLitF, hp]
        rw [heq]
        have hpos :=
          length_pos_of_ne_nil (splitOnLitF_ne_nil [a] f ((c :: cs).drop 1))
        simp only [List.length_cons]
        omega
      · have hcs : goContains cs [a] = true := by
          rw [show goContains (c :: cs) [a] =
              (([a] : Str).isPrefixOf (c :: cs) || goContains cs [a])
            from rfl] at hc
          rcases Bool.or_eq_true _ _ |>.mp hc with h | h
          · exact absurd h hp
          · exact h
        rcases hrec : splitOnLitF [a] f cs with _ | ⟨t, ts⟩
        · exact absurd hrec (splitOnLitF_ne_nil [a] f cs)
        · have heq : splitOnLitF [a] (f + 1) (c :: cs) = (c :: t) :: ts := by
            simp [splitOnLitF, hp, hrec]
          rw [heq]
          have := ih cs hr hcs
          rw [hrec] at this
          simpa using this

theorem takeWhile_append_single_neg {q : Char → Bool} {c : Char}
    (hc : q c = false) :
    ∀ l : Str, (l ++ [c]).takeWhile q = l.takeWhile q := by
  intro l
  induction l with
  | nil => simp [List.takeWhile_cons, hc]
  | cons a as ih =>
    by_cases ha : q a = true
    · rw [List.cons_append, List.takeWhile_cons_of_pos ha,
        List.takeWhile_cons_of_pos ha, ih]
    · rw [List.cons_append, List.takeWhile_cons_of_neg ha,
        List.takeWhile_cons_of_neg ha]

theorem takeWhile_append_of_exists_neg {q : Char → Bool} :
    ∀ {l l2 : Str}, (∃ x ∈ l, q x = false) →
      (l ++ l2).takeWhile q = l.takeWhile q := by
  intro l
  induction l with
  | nil => rintro l2 ⟨x, hx, _⟩; cases hx
  | cons a as ih =>
    rintro l2 ⟨x, hx, hqx⟩
    by_cases ha : q a = true
    · rcases List.mem_cons.mp hx with h | h
      · subst h; rw [ha] at hqx; cases hqx
      · rw [List.cons_append, List.takeWhile_cons_of_pos ha,
          List.takeWhile_cons_of_pos ha, ih ⟨x, h, hqx⟩]
    · rw [List.cons_append, List.takeWhile_cons_of_neg ha,
        List.takeWhile_cons_of_neg ha]

theorem splitOnLitF_getLastD (a : Char) :
    ∀ fuel s, s.length ≤ fuel →
      (splitOnLitF [a] fuel s).getLastD [] =
        (s.reverse.takeWhile (fun c => !(c == a))).reverse := by
  intro fuel
  induction fuel with
  | zero =>
    intro s h1
    have hs : s = [] := List.length_eq_zero.mp (Nat.le_zero.mp h1)
    subst hs
    rfl
  | succ f ih =>
    intro s h1
    cases s with
    | nil => rfl
    | cons c cs =>
      have hr : cs.length ≤ f := by simpa using h1
      rw [List.reverse_cons]
      by_cases hp : ([a] : Str).isPrefixOf (c :: cs) = true
      · have hac : a = c := by
          obtain ⟨r, hr2⟩ := List.isPrefixOf_iff_prefix.mp hp
          have hr3 : a :: r = c :: cs := hr2
          have h4 := congrArg List.head? hr3
          simp at h4
          exact h4
        have heq : splitOnLitF [a] (f + 1) (c :: cs) =
            [] :: splitOnLitF [a] f cs := by
          simp [splitOnLitF, hp, List.drop]
        rw [heq, List.getLastD_cons, ih cs hr,
          takeWhile_append_single_neg (by simp [hac])]
      · have hac : ¬ (c == a) = true := by
          intro hb
          have : a = c := (eq_of_beq hb).symm
          subst this
          exact hp (List.isPrefixOf_iff_prefix.mpr ⟨cs, rfl⟩)
        rcases hrec : splitOnLitF [a] f cs with _ | ⟨t, ts⟩
        · exact absurd hrec (splitOnLitF_ne_nil [a] f cs)
        · have heq : splitOnLitF [a] (f + 1) (c :: cs) = (c :: t) :: ts := by
            simp [splitOnLitF, hp, hrec]
          rw [heq, List.getLastD_cons]
          by_cases hcont : goContains cs [a] = true
          · have hlen2 := splitOnLitF_len2_of_contains f cs hr hcont
            rw [hrec] at hlen2
            have hts : ts ≠ [] := by
              intro hx
              subst hx
              simp at hlen2
            have hwit : ∃ x ∈ cs.reverse, (fun c => !(c == a)) x = false := by
              obtain ⟨l1, l2, hsplit⟩ :=
                (goContains_iff cs [a]).mp hcont
              refine ⟨a, ?_, by simp⟩
              rw [List.mem_reverse, ← hsplit]
              simp
            rw [takeWhile_append_of_exists_neg hwit,
              getLastD_irrel hts (c :: t) t]
            have := ih cs hr
            rw [hrec, List.getLastD_cons] at this
            exact this
          · have hrec1 : splitOnLitF [a] f cs = [cs] :=
              splitOnLitF_no_occurrence [a] (by simp) f cs hr
                (Bool.eq_false_iff.mpr hcont)
            rw [hrec1] at hrec
            injection hrec with ht hts
            subst ht
            subst hts
            have hnomem : a ∉ cs := fun hmem =>
              hcont (mem_goContains_singleton hmem)
            have htws : List.takeWhile (fun x => !(x == a))
                (cs.reverse ++ [c]) = cs.reverse ++ [c] := by
              rw [List.takeWhile_eq_self_iff]
              intro x hx
              show (!(x == a)) = true
              rcases List.mem_append.mp hx with hmem | hmem
              · have hxa : (x == a) = false := by
                  cases hb : x == a
                  · rfl
                  · exfalso
                    have hx2 : a ∈ cs.reverse := by
                      rw [← eq_of_beq hb]
                      exact hmem
                    exact hnomem (List.mem_reverse.mp hx2)
                rw [hxa]
                rfl
              · rw [List.mem_singleton] at hmem
                subst hmem
                rw [Bool.eq_false_iff.mpr hac]
                rfl
            rw [htws]
            simp

theorem normalizeCommand_eq (cmd : Str) :
    normalizeCommand cmd = trimSpace (afterLastSlash cmd) := by
  cases cmd with
  | nil => rfl
  | cons c cs =>
    have hie : (c :: cs).isEmpty = false := rfl
    simp only [normalizeCommand, hie, Bool.false_eq_true, if_false]
    by_cases hsl : goContains (c :: cs) ['/'] = true
    · rw [if_pos hsl]
      unfold afterLastSlash
      rw [splitOnLit_eq_F ['/'] (by simp) (c :: cs),
        splitOnLitF_getLastD '/' (c :: cs).length (c :: cs) (Nat.le_refl _)]
    · rw [if_neg hsl]
      have hnomem : '/' ∉ c :: cs := fun hm =>
        hsl (mem_goContains_singleton hm)
      unfold afterLastSlash
      rw [List.takeWhile_eq_self_iff.mpr (fun x hx => by
        show (!(x == '/')) = true
        have hxa : (x == '/') = false := by
          cases hb : x == '/'
          · rfl
          · exfalso
            have hx2 : '/' ∈ c :: cs := by
              rw [← eq_of_beq hb]
              exact List.mem_reverse.mp hx
            exact hnomem hx2
        rw [hxa]
        rfl), List.reverse_reverse]

theorem mem_afterLastSlash {c : Char} {cmd : Str}
    (h : c ∈ afterLastSlash cmd) : c ∈ cmd := by
  unfold afterLastSlash at h
  rw [List.mem_reverse] at h
  have := List.mem_takeWhile_imp h
  exact List.mem_reverse.mp (List.takeWhile_prefix _ |>.subset h)

/-- Witness for C6: the token `jq` emitted for a `/usr/bin/jq` script is
the substring of a raw extracted token after its last `/`. -/
theorem extractor_path_stripping :
    (∀ cmd : Str, normalizeCommand cmd = trimSpace (afterLastSlash cmd)) ∧
    (∀ script t, t ∈ normalizedCommands script →
      ∃ raw ∈ extractCommands script, t = afterLastSlash raw) ∧
    normalizedCommands ("/usr/bin/jq .x data.json".toList) = ["jq".toList] := by
  refine ⟨normalizeCommand_eq, ?_, by decide⟩
  intro script t ht
  unfold normalizedCommands at ht
  rw [List.mem_filter, List.mem_map] at ht
  obtain ⟨⟨raw, hraw, hteq⟩, _⟩ := ht
  obtain ⟨_, hfree, _, _⟩ := extractCommands_token_shape hraw
  refine ⟨raw, hraw, ?_⟩
  rw [← hteq, normalizeCommand_eq raw,
    trimSpace_of_no_space (fun c hc => hfree c (mem_afterLastSlash hc))]

theorem extractor_path_stripping_witness :
    ∃ raw ∈ extractCommands ("/usr/bin/jq .x data.json".toList),
      "jq".toList = afterLastSlash raw :=
  extractor_path_stripping.2.1 ("/usr/bin/jq .x data.json".toList)
    ("jq".toList) (by decide)

/-- C5 counterexample: `extractCommands` is not idempotent on its own
single-token output.  The script `echo hi ; #tag` yields the token
`#tag` (a mid-line comment fragment), and the script `sudo A=1 pwd`
yields `A=1` (an assignment after a skipped wrapper), but re-extracting
either single token yields `[]`, not the token itself. -/
theorem extractCommands_idempotence_counterexample :
    extractCommands ("echo hi ; #tag".toList) =
      ["echo".toList, "#tag".toList] ∧
    extractCommands ("#tag".toList) = [] ∧
    extractCommands ("sudo A=1 pwd".toList) = ["A=1".toList] ∧
    extractCommands ("A=1".toList) = [] := by
  refine ⟨by decide, by decide, by decide, by decide⟩

/-- Witness for C5 (amended): the already-extracted token `jq` of the
script `jq .x f` re-extracts to itself, and a script of comments, blank
lines and assignments extracts to nothing. -/
theorem extractCommands_idempotent_amended :
    (∀ script t, t ∈ extractCommands script →
      (['#'] : Str).isPrefixOf t = false → goContains t ['='] = false →
      extractCommands t = [t]) ∧
    (∀ script, (∀ rawLine ∈ splitOnLit ['\n'] script,
        trimSpace rawLine = [] ∨
        (['#'] : Str).isPrefixOf (trimSpace rawLine) = true ∨
        ((∀ sep ∈ commandSeparators,
            goContains (trimSpace rawLine) sep = false) ∧
         ∀ f ∈ goFields (trimSpace rawLine), goContains f ['='] = true)) →
      extractCommands script = []) := by
  constructor
  · intro script t hmem h5 h6
    obtain ⟨h1, h2, h3, h4⟩ := extractCommands_token_shape hmem
    exact extractCommands_single_token h1 h2 h3 h4 h5 h6
  · intro script hall
    unfold extractCommands
    rw [List.flatMap_eq_nil_iff]
    intro rawLine hraw
    rcases hall rawLine hraw with hblank | hcomment | ⟨hnosep, hassign⟩
    · rw [if_pos (by rw [hblank]; rfl)]
    · have hne : (trimSpace rawLine).isEmpty = false := by
        cases htr : trimSpace rawLine with
        | nil => rw [htr] at hcomment; cases hcomment
        | cons a as => rfl
      rw [if_neg (by rw [hne]; exact Bool.false_ne_true), if_pos hcomment]
    · by_cases hln : trimSpace rawLine = []
      · rw [if_pos (by rw [hln]; rfl)]
      · have hne := isEmpty_false_of_ne_nil hln
        rw [if_neg (by rw [hne]; exact Bool.false_ne_true)]
        by_cases hcm : (['#'] : Str).isPrefixOf (trimSpace rawLine) = true
        · rw [if_pos hcm]
        · rw [if_neg hcm]
          by_cases hcm2 : ("#!".toList : Str).isPrefixOf
              (trimSpace rawLine) = true
          · rw [if_pos hcm2]
          · rw [if_neg hcm2]
            rw [List.flatMap_eq_nil_iff]
            intro part hpart
            rw [splitCommandLine_no_sep hln (trimSpace_idempotent rawLine)
              hnosep, List.mem_singleton] at hpart
            subst hpart
            have hz : extractCommandFromPart (trimSpace rawLine) = [] := by
              simp only [extractCommandFromPart, trimSpace_idempotent rawLine]
              rw [if_neg (by rw [hne]; exact Bool.false_ne_true)]
              by_cases hfe : (goFields (trimSpace rawLine)).isEmpty = true
              · rw [if_pos hfe]
              · rw [if_neg hfe,
                  List.dropWhile_eq_nil_iff.mpr (fun f hf => hassign f hf)]
                rfl
            rw [if_pos (by rw [hz]; rfl)]

theorem extractCommands_idempotent_amended_witness :
    extractCommands ("jq".toList) = ["jq".toList] ∧
    extractCommands ("# build step\n\nA=1 B=2".toList) = [] := by
  constructor
  · exact extractCommands_idempotent_amended.1 ("jq .x f".toList)
      ("jq".toList) (by decide) (by decide) (by decide)
  · exact extractCommands_idempotent_amended.2
      ("# build step\n\nA=1 B=2".toList) (by decide)

theorem getMissingCommandsAux_append (m p : Str → Bool) :
    ∀ xs ys seen acc,
      getMissingCommandsAux m p (xs ++ ys) seen acc =
        getMissingCommandsAux m p ys
          (getMissingCommandsAux m p xs seen acc).2
          (getMissingCommandsAux m p xs seen acc).1 := by
  intro xs
  induction xs with
  | nil => intro ys seen acc; rfl
  | cons cmd xs ih =>
    intro ys seen acc
    show getMissingCommandsAux m p (cmd :: (xs ++ ys)) seen acc = _
    simp only [getMissingCommandsAux]
    by_cases h1 : (normalizeCommand cmd).isEmpty = true
    · simp only [if_pos h1]
      exact ih ys seen acc
    · simp only [if_neg h1]
      by_cases h2 : p (normalizeCommand cmd) = true
      · simp only [if_pos h2]
        exact ih ys seen acc
      · simp only [if_neg h2]
        by_cases h3 : (m (normalizeCommand cmd) &&
            !seen.contains (normalizeCommand cmd)) = true
        · simp only [if_pos h3]
          exact ih ys _ _
        · simp only [if_neg h3]
          exact ih ys seen acc

theorem dedupKeepFirst_nil : dedupKeepFirst [] = [] := by
  rw [dedupKeepFirst]

theorem dedupKeepFirst_cons (x : Str) (xs : List Str) :
    dedupKeepFirst (x :: xs) =
      x :: dedupKeepFirst (xs.filter (fun y => !(y == x))) := by
  rw [dedupKeepFirst]

theorem filter_seen_cons (n : Str) (seen : List Str) (l : List Str) :
    l.filter (fun c => !(n :: seen).contains c) =
      (l.filter (fun c => !seen.contains c)).filter (fun y => !(y == n)) := by
  rw [List.filter_filter]
  apply List.filter_congr
  intro c _
  rw [List.contains_cons]
  cases hc1 : c == n <;> cases hc2 : seen.contains c <;> rfl

theorem getMissingCommandsAux_spec (m p : Str → Bool) :
    ∀ cmds seen acc,
      (getMissingCommandsAux m p cmds seen acc).1 =
        acc ++ dedupKeepFirst
          (((cmds.map normalizeCommand).filter
            (fun c => !c.isEmpty && !p c && m c)).filter
            (fun c => !seen.contains c)) ∧
      ∀ c, (getMissingCommandsAux m p cmds seen acc).2.contains c =
        (seen.contains c ||
          ((cmds.map normalizeCommand).filter
            (fun c => !c.isEmpty && !p c && m c)).contains c) := by
  intro cmds
  induction cmds with
  | nil =>
    intro seen acc
    refine ⟨?_, fun c => ?_⟩
    · simp only [List.map_nil, List.filter_nil, dedupKeepFirst_nil,
        List.append_nil]
      rfl
    · simp only [List.map_nil, List.filter_nil]
      show seen.contains c = (seen.contains c || ([] : List Str).contains c)
      simp
  | cons cmd rest ih =>
    intro seen acc
    have hmap : (cmd :: rest).map normalizeCommand =
        normalizeCommand cmd :: rest.map normalizeCommand := rfl
    rw [hmap]
    by_cases h1 : (normalizeCommand cmd).isEmpty = true
    · have hpredf : (!(normalizeCommand cmd).isEmpty &&
          !p (normalizeCommand cmd) && m (normalizeCommand cmd)) = false := by
        rw [h1]
        rfl
      rw [@List.filter_cons_of_neg Str (fun c => !c.isEmpty && !p c && m c)
        (normalizeCommand cmd) (List.map normalizeCommand rest)
        (fun hx => Bool.false_ne_true (hpredf.symm.trans hx))]
      have haux : getMissingCommandsAux m p (cmd :: rest) seen acc =
          getMissingCommandsAux m p rest seen acc := by
        simp only [getMissingCommandsAux, if_pos h1]
      rw [haux]
      exact ih seen acc
    · have h1f : (normalizeCommand cmd).isEmpty = false :=
        Bool.eq_false_iff.mpr h1
      by_cases h2 : p (normalizeCommand cmd) = true
      · have hpredf : (!(normalizeCommand cmd).isEmpty &&
            !p (normalizeCommand cmd) && m (normalizeCommand cmd)) = false := by
          rw [h1f, h2]
          rfl
        rw [@List.filter_cons_of_neg Str (fun c => !c.isEmpty && !p c && m c)
          (normalizeCommand cmd) (List.map normalizeCommand rest)
          (fun hx => Bool.false_ne_true (hpredf.symm.trans hx))]
        have haux : getMissingCommandsAux m p (cmd :: rest) seen acc =
            getMissingCommandsAux m p rest seen acc := by
          simp only [getMissingCommandsAux, if_neg h1, if_pos h2]
        rw [haux]
        exact ih seen acc
      · have h2f : p (normalizeCommand cmd) = false :=
          Bool.eq_false_iff.mpr h2
        by_cases hm : m (normalizeCommand cmd) = true
        · have hpredt : (!(normalizeCommand cmd).isEmpty &&
              !p (normalizeCommand cmd) && m (normalizeCommand cmd)) = true := by
            rw [h1f, h2f, hm]
            rfl
          rw [@List.filter_cons_of_pos Str (fun c => !c.isEmpty && !p c && m c)
            (normalizeCommand cmd) (List.map normalizeCommand rest) hpredt]
          by_cases hseen : seen.contains (normalizeCommand cmd) = true
          · have hguard : (m (normalizeCommand cmd) &&
                !seen.contains (normalizeCommand cmd)) = false := by
              rw [hm, hseen]
              rfl
            have haux : getMissingCommandsAux m p (cmd :: rest) seen acc =
                getMissingCommandsAux m p rest seen acc := by
              simp only [getMissingCommandsAux, if_neg h1, if_neg h2,
                hguard, Bool.false_eq_true, if_false]
            rw [haux]
            have hdropf : (!seen.contains (normalizeCommand cmd)) = false := by
              rw [hseen]
              rfl
            refine ⟨?_, fun c => ?_⟩
            · rw [(ih seen acc).1,
                @List.filter_cons_of_neg Str (fun c => !seen.contains c)
                  (normalizeCommand cmd)
                  (List.filter (fun c => !c.isEmpty && !p c && m c)
                    (List.map normalizeCommand rest))
                  (fun hx => Bool.false_ne_true (hdropf.symm.trans hx))]
            · rw [(ih seen acc).2 c, List.contains_cons]
              by_cases hcn : (c == normalizeCommand cmd) = true
              · have hceq : c = normalizeCommand cmd := eq_of_beq hcn
                rw [hcn, hceq, hseen]
                simp
              · rw [Bool.eq_false_iff.mpr hcn]
                simp
          · have hseenf : seen.contains (normalizeCommand cmd) = false :=
              Bool.eq_false_iff.mpr hseen
            have hkeept : (!seen.contains (normalizeCommand cmd)) = true := by
              rw [hseenf]
              rfl
            have hguard : (m (normalizeCommand cmd) &&
                !seen.contains (normalizeCommand cmd)) = true := by
              rw [hm]
              show (true && !seen.contains (normalizeCommand cmd)) = true
              rw [hseenf]
              rfl
            have haux : getMissingCommandsAux m p (cmd :: rest) seen acc =
                getMissingCommandsAux m p rest
                  (normalizeCommand cmd :: seen)
                  (acc ++ [normalizeCommand cmd]) := by
              simp only [getMissingCommandsAux, if_neg h1, if_neg h2, hguard]
              exact if_pos trivial
            rw [haux]
            refine ⟨?_, fun c => ?_⟩
            · rw [(ih (normalizeCommand cmd :: seen)
                (acc ++ [normalizeCommand cmd])).1,
                @List.filter_cons_of_pos Str (fun c => !seen.contains c)
                  (normalizeCommand cmd)
                  (List.filter (fun c => !c.isEmpty && !p c && m c)
                    (List.map normalizeCommand rest)) hkeept,
                dedupKeepFirst_cons,
                filter_seen_cons (normalizeCommand cmd) seen,
                List.append_assoc]
              rfl
            · rw [(ih (normalizeCommand cmd :: seen)
                (acc ++ [normalizeCommand cmd])).2 c,
                List.contains_cons, List.contains_cons]
              cases hc1 : c == normalizeCommand cmd <;>
                cases hc2 : seen.contains c <;> simp
        · have hmf : m (normalizeCommand cmd) = false :=
            Bool.eq_false_iff.mpr hm
          have hpredf : (!(normalizeCommand cmd).isEmpty &&
              !p (normalizeCommand cmd) && m (normalizeCommand cmd)) = false := by
            rw [hmf]
            simp
          rw [@List.filter_cons_of_neg Str (fun c => !c.isEmpty && !p c && m c)
            (normalizeCommand cmd) (List.map normalizeCommand rest)
            (fun hx => Bool.false_ne_true (hpredf.symm.trans hx))]
          have hguard : (m (normalizeCommand cmd) &&
              !seen.contains (normalizeCommand cmd)) = false := by
            rw [hmf]
            rfl
          have haux : getMissingCommandsAux m p (cmd :: rest) seen acc =
              getMissingCommandsAux m p rest seen acc := by
            simp only [getMissingCommandsAux, if_neg h1, if_neg h2,
              hguard, Bool.false_eq_true, if_false]
          rw [haux]
          exact ih seen acc

theorem getMissingCommandsSteps_eq_aux (m p : Str → Bool) :
    ∀ steps seen acc,
      getMissingCommandsSteps m p steps seen acc =
        getMissingCommandsAux m p (stepScriptCommands steps) seen acc := by
  intro steps
  induction steps with
  | nil => intro seen acc; rfl
  | cons st rest ih =>
    intro seen acc
    show getMissingCommandsSteps m p (st :: rest) seen acc = _
    have hstream : stepScriptCommands (st :: rest) =
        (if st.run.isEmpty then [] else extractCommands st.run) ++
          stepScriptCommands rest := by
      simp [stepScriptCommands]
    rw [hstream]
    by_cases hrun : st.run.isEmpty = true
    · rw [if_pos hrun]
      simp only [getMissingCommandsSteps, if_pos hrun, List.nil_append]
      exact ih seen acc
    · rw [if_neg hrun]
      simp only [getMissingCommandsSteps, if_neg hrun]
      rw [getMissingCommandsAux_append]
      exact ih _ _

/-- C4: for an eligible (ubuntu-latest) job, the missing-command list is
exactly the first-seen de-duplication of the job's normalized command
stream filtered by the policy: non-empty names that are in the
missing-in-slim set and not provided by a recognized setup action of the
same job.  In particular a setup-provided command is never reported, and
the list is duplicate-free in first-seen order. -/
theorem getMissingCommands_policy (j : Job) (isMissing : Str → Bool)
    (h : j.isUbuntuLatest = true) :
    j.getMissingCommands isMissing =
      dedupKeepFirst ((jobCommandStream j).filter
        (fun c => !c.isEmpty && !j.setupProvided c && isMissing c)) := by
  unfold Job.getMissingCommands
  rw [h]
  simp only [Bool.not_true, Bool.false_eq_true, if_false]
  rw [getMissingCommandsSteps_eq_aux,
    (getMissingCommandsAux_spec isMissing j.setupProvided
      (stepScriptCommands j.steps) [] []).1]
  rw [List.nil_append]
  have hfe : List.filter (fun c => !([] : List Str).contains c)
      (List.filter (fun c => !c.isEmpty && !j.setupProvided c && isMissing c)
        (List.map normalizeCommand (stepScriptCommands j.steps))) =
      List.filter (fun c => !c.isEmpty && !j.setupProvided c && isMissing c)
        (List.map normalizeCommand (stepScriptCommands j.steps)) :=
    List.filter_eq_self.mpr (fun c _ => rfl)
  rw [hfe]
  rfl

/-- Witness for C4: a job with `actions/setup-go` plus scripts running
`go` and `jq` reports only `jq` missing (with a missing-set containing
both): the setup-provided `go` is excluded and the duplicate `jq` is
reported once. -/
theorem getMissingCommands_policy_witness :
    Job.getMissingCommands
        ⟨"t".toList, "t".toList, .scalar ubuntuLatest,
         [⟨[], "actions/setup-go@v5".toList, []⟩,
          ⟨[], [], "go test ./...".toList⟩,
          ⟨[], [], "jq .x f\njq .y g".toList⟩], none, none, 0⟩
        (fun c => c == "go".toList || c == "jq".toList) =
      dedupKeepFirst ((jobCommandStream
        ⟨"t".toList, "t".toList, .scalar ubuntuLatest,
         [⟨[], "actions/setup-go@v5".toList, []⟩,
          ⟨[], [], "go test ./...".toList⟩,
          ⟨[], [], "jq .x f\njq .y g".toList⟩], none, none, 0⟩).filter
        (fun c => !c.isEmpty &&
          !(Job.setupProvided
            ⟨"t".toList, "t".toList, .scalar ubuntuLatest,
             [⟨[], "actions/setup-go@v5".toList, []⟩,
              ⟨[], [], "go test ./...".toList⟩,
              ⟨[], [], "jq .x f\njq .y g".toList⟩], none, none, 0⟩ c) &&
          (c == "go".toList || c == "jq".toList))) ∧
    Job.getMissingCommands
        ⟨"t".toList, "t".toList, .scalar ubuntuLatest,
         [⟨[], "actions/setup-go@v5".toList, []⟩,
          ⟨[], [], "go test ./...".toList⟩,
          ⟨[], [], "jq .x f\njq .y g".toList⟩], none, none, 0⟩
        (fun c => c == "go".toList || c == "jq".toList) = ["jq".toList] :=
  ⟨getMissingCommands_policy _ _ (by decide), by decide⟩


/-- Every candidate one iteration of the classification loop of `Scan`
appends has the zero-value duration `""`. -/
theorem classifyStep_mem_duration (isMissing : Str → Bool) (path : Str)
    (acc : List Candidate × List IneligibleJob) (jobEntry : Str × Job)
    (c : Candidate) (hc : c ∈ (classifyStep isMissing path acc jobEntry).1) :
    c ∈ acc.1 ∨ c.duration = "" := by
  rcases h : checkEligibility jobEntry.2 with ⟨b, rs⟩
  cases b with
  | false =>
    simp only [classifyStep, h] at hc
    exact Or.inl hc
  | true =>
    simp [classifyStep, h] at hc
    rcases hc with h1 | h1
    · exact Or.inl h1
    · subst h1
      exact Or.inr rfl

/-- Candidates accumulated by the per-workflow job loop keep the
empty-duration invariant. -/
theorem classifyJobs_inner_duration (isMissing : Str → Bool) (path : Str) :
    ∀ (jobs : List (Str × Job)) (acc : List Candidate × List IneligibleJob),
      (∀ c ∈ acc.1, c.duration = "") →
      ∀ c ∈ (jobs.foldl (classifyStep isMissing path) acc).1,
        c.duration = "" := by
  intro jobs
  induction jobs with
  | nil => intro acc hacc c hc; exact hacc c hc
  | cons j js ih =>
    intro acc hacc c hc
    refine ih (classifyStep isMissing path acc j) ?_ c hc
    intro c' hc'
    rcases classifyStep_mem_duration isMissing path acc j c' hc' with h1 | h1
    · exact hacc c' h1
    · exact h1

/-- Before enrichment, every candidate produced by the classification
loops of `Scan` has `Duration` at its zero value `""`. -/
theorem classifyJobs_duration_empty (isMissing : Str → Bool)
    (wfs : List Workflow) :
    ∀ c ∈ (classifyJobs isMissing wfs).1, c.duration = "" := by
  have hgen : ∀ (ws : List Workflow)
      (acc : List Candidate × List IneligibleJob),
      (∀ c ∈ acc.1, c.duration = "") →
      ∀ c ∈ (ws.foldl
        (fun acc wf => wf.jobs.foldl (classifyStep isMissing wf.path) acc)
        acc).1, c.duration = "" := by
    intro ws
    induction ws with
    | nil => intro acc hacc c hc; exact hacc c hc
    | cons w ws ih =>
      intro acc hacc c hc
      refine ih _ ?_ c hc
      exact classifyJobs_inner_duration isMissing w.path w.jobs acc hacc
  intro c hc
  exact hgen wfs ([], []) (fun c' hc' => absurd hc' (List.not_mem_nil c')) c hc

/-- On a non-empty candidate list, a repository-info failure aborts the
enrichment phase with that error. -/
theorem fetchDurations_error_cons (er : String)
    (getDur : Str → Str → Str → Except String Nat) (a : Candidate)
    (t : List Candidate) :
    fetchDurations (Except.error er) getDur (a :: t) = Except.error er := rfl

/-- On a non-empty candidate list with repository info available, the
enrichment phase maps every candidate, leaving a candidate unchanged
when its duration lookup fails. -/
theorem fetchDurations_ok_cons (u : Unit)
    (getDur : Str → Str → Str → Except String Nat) (a : Candidate)
    (t : List Candidate) :
    fetchDurations (Except.ok u) getDur (a :: t) =
      Except.ok ((a :: t).map (fun c' =>
        match getDur c'.workflowPath c'.jobID c'.jobName with
        | Except.error _ => c'
        | Except.ok d => { c' with duration := formatDuration d })) := rfl

/-- C9: a failing duration enrichment is soft.  For any candidate whose
per-job duration lookup fails — or when repository-info discovery fails
for the whole phase — `Scan` still returns successfully, the ineligible
jobs are those of the classification phase, every classified candidate
is still returned (same count), and the affected candidate appears
unchanged with its `Duration` still at the zero value `""`. -/
theorem scan_enrichment_failures_soft
    (isMissing : Str → Bool) (repo : Except String Unit)
    (getDur : Str → Str → Str → Except String Nat)
    (wfs : List Workflow) (c : Candidate) (e : String)
    (hc : c ∈ (classifyJobs isMissing wfs).1)
    (he : getDur c.workflowPath c.jobID c.jobName = Except.error e ∨
      repo = Except.error e) :
    goScan isMissing false repo getDur (Except.ok wfs) =
      Except.ok (scanCore isMissing false repo getDur wfs) ∧
    (scanCore isMissing false repo getDur wfs).ineligibleJobs =
      (classifyJobs isMissing wfs).2 ∧
    (scanCore isMissing false repo getDur wfs).candidates.length =
      (classifyJobs isMissing wfs).1.length ∧
    c ∈ (scanCore isMissing false repo getDur wfs).candidates ∧
    c.duration = "" := by
  have hdur : c.duration = "" := classifyJobs_duration_empty isMissing wfs c hc
  obtain ⟨a, t, hcv⟩ : ∃ a t, (classifyJobs isMissing wfs).1 = a :: t := by
    cases hcv : (classifyJobs isMissing wfs).1 with
    | nil => rw [hcv] at hc; exact absurd hc (List.not_mem_nil c)
    | cons a t => exact ⟨a, t, rfl⟩
  have hsc : scanCore isMissing false repo getDur wfs =
      ⟨match fetchDurations repo getDur (classifyJobs isMissing wfs).1 with
        | .error _ => (classifyJobs isMissing wfs).1
        | .ok cs => cs,
       (classifyJobs isMissing wfs).2⟩ := rfl
  cases repo with
  | error er =>
    have hcands : (scanCore isMissing false (Except.error er) getDur
        wfs).candidates = a :: t := by
      rw [hsc, hcv, fetchDurations_error_cons]
    refine ⟨rfl, by rw [hsc], ?_, ?_, hdur⟩
    · rw [hcands, hcv]
    · rw [hcands]; exact hcv ▸ hc
  | ok u =>
    have herr : getDur c.workflowPath c.jobID c.jobName = Except.error e := by
      rcases he with herr | habs
      · exact herr
      · exact absurd habs (by simp)
    have hcands : (scanCore isMissing false (Except.ok u) getDur
        wfs).candidates = (a :: t).map (fun c' =>
          match getDur c'.workflowPath c'.jobID c'.jobName with
          | Except.error _ => c'
          | Except.ok d => { c' with duration := formatDuration d }) := by
      rw [hsc, hcv, fetchDurations_ok_cons]
    refine ⟨rfl, by rw [hsc], ?_, ?_, hdur⟩
    · rw [hcands, hcv]
      simp
    · rw [hcands]
      rw [hcv] at hc
      refine List.mem_map.mpr ⟨c, hc, ?_⟩
      show (match getDur c.workflowPath c.jobID c.jobName with
        | Except.error _ => c
        | Except.ok d => { c with duration := formatDuration d }) = c
      rw [herr]

/-- Witness for C9: a concrete scan whose duration oracle fails on
every job still returns the eligible candidate with empty duration
alongside the ineligible job. -/
theorem scan_enrichment_failures_soft_witness :
    goScan wIsMissing false (Except.ok ()) wGetDurFail
        (Except.ok [wWorkflow]) =
      Except.ok (scanCore wIsMissing false (Except.ok ()) wGetDurFail
        [wWorkflow]) ∧
    (scanCore wIsMissing false (Except.ok ()) wGetDurFail
        [wWorkflow]).ineligibleJobs =
      (classifyJobs wIsMissing [wWorkflow]).2 ∧
    (scanCore wIsMissing false (Except.ok ()) wGetDurFail
        [wWorkflow]).candidates.length =
      (classifyJobs wIsMissing [wWorkflow]).1.length ∧
    wCand ∈ (scanCore wIsMissing false (Except.ok ()) wGetDurFail
        [wWorkflow]).candidates ∧
    wCand.duration = "" :=
  scan_enrichment_failures_soft wIsMissing (Except.ok ()) wGetDurFail
    [wWorkflow] wCand "api failure" (by decide) (Or.inl rfl)


/-- Lockstep specification of the `UpdateRunsOn` line loop against the
block collector: from any loop state, the `updated` flag ends `true`
iff some line of the remaining target-job block contains both the
substring `runs-on:` and the substring `ubuntu-latest` after trimming,
and a run that does not update returns the lines unchanged. -/
theorem updateLoop_spec (jobID newRunsOn : Str) :
    ∀ (ls : List Str) (inJobs inTarget : Bool) (indentLevel : Nat),
      ((updateLoop jobID newRunsOn ls inJobs inTarget indentLevel).2 = true ↔
        ∃ l ∈ targetBlockF jobID ls inJobs inTarget indentLevel,
          goContains (trimSpace l) runsOnKey = true ∧
          goContains (trimSpace l) ubuntuLatest = true) ∧
      ((updateLoop jobID newRunsOn ls inJobs inTarget indentLevel).2 = false →
        (updateLoop jobID newRunsOn ls inJobs inTarget indentLevel).1 = ls) := by
  intro ls
  induction ls with
  | nil =>
    intro inJobs inTarget indentLevel
    exact ⟨by simp [updateLoop, targetBlockF], fun _ => rfl⟩
  | cons line rest ih =>
    intro inJobs inTarget indentLevel
    by_cases h1 : (trimSpace line == jobsHeader) = true
    · simp only [updateLoop, targetBlockF, h1, if_true]
      exact ⟨(ih true inTarget indentLevel).1,
        fun hf => by rw [(ih true inTarget indentLevel).2 hf]⟩
    · cases inJobs with
      | false =>
        simp only [updateLoop, targetBlockF, h1, Bool.not_false, if_true, if_false,
          Bool.false_eq_true, ite_false]
        exact ⟨(ih false inTarget indentLevel).1,
          fun hf => by rw [(ih false inTarget indentLevel).2 hf]⟩
      | true =>
        by_cases h3 : (lineIndentOf line == 0 && !(trimSpace line).isEmpty &&
            !goHasSuffix (trimSpace line) [':']) = true
        · simp only [updateLoop, targetBlockF, h1, h3, Bool.not_true, if_false,
            Bool.false_eq_true, ite_false, if_true]
          constructor
          · simp
          · simp
        · by_cases h4 : ((jobID ++ [':']).isPrefixOf (trimSpace line)) = true
          · simp only [updateLoop, targetBlockF, h1, h3, h4, Bool.not_true,
              Bool.false_eq_true, ite_false, if_true, if_false]
            exact ⟨(ih true true (lineIndentOf line)).1,
              fun hf => by rw [(ih true true (lineIndentOf line)).2 hf]⟩
          · cases inTarget with
            | false =>
              simp only [updateLoop, targetBlockF, h1, h3, h4, Bool.not_true,
                Bool.false_eq_true, ite_false, if_true, if_false]
              exact ⟨(ih true false indentLevel).1,
                fun hf => by rw [(ih true false indentLevel).2 hf]⟩
            | true =>
              by_cases h5 : (decide (lineIndentOf line ≤ indentLevel) &&
                  !(trimSpace line).isEmpty &&
                  !([' '].isPrefixOf (trimSpace line))) = true
              · simp only [updateLoop, targetBlockF, h1, h3, h4, h5, Bool.not_true,
                  Bool.false_eq_true, ite_false, if_true, if_false]
                constructor
                · simp
                · simp
              · by_cases h6 : (goContains (trimSpace line) runsOnKey &&
                    goContains (trimSpace line) ubuntuLatest) = true
                · simp only [updateLoop, targetBlockF, h1, h3, h4, h5, h6,
                    Bool.not_true, Bool.false_eq_true, ite_false, if_true, if_false]
                  rcases Bool.and_eq_true_iff.mp h6 with ⟨h6a, h6b⟩
                  constructor
                  · constructor
                    · intro _
                      exact ⟨line, List.mem_cons_self .., h6a, h6b⟩
                    · intro _
                      trivial
                  · simp
                · simp only [updateLoop, targetBlockF, h1, h3, h4, h5, h6,
                    Bool.not_true, Bool.false_eq_true, ite_false, if_true, if_false]
                  constructor
                  · constructor
                    · intro ht
                      rcases (ih true true indentLevel).1.mp ht with ⟨l, hl, hp⟩
                      exact ⟨l, List.mem_cons_of_mem _ hl, hp⟩
                    · rintro ⟨l, hl, hp1, hp2⟩
                      rcases List.mem_cons.mp hl with rfl | hl'
                      · exact absurd (by rw [hp1, hp2]; rfl) h6
                      · exact (ih true true indentLevel).1.mpr ⟨l, hl', hp1, hp2⟩
                  · intro hf
                    rw [(ih true true indentLevel).2 hf]

/-- C10: `UpdateRunsOn` succeeds iff the target job's block (as
delimited by its own scan) has a line whose trimmed text contains both
the substring `runs-on:` and the substring `ubuntu-latest` — so a job
whose runner is any other value, or whose runner sequence spans
several lines, makes it error even though the job exists — and on
error no write happens (`none` is returned before the write) and the
loop's line buffer is moreover exactly the input lines. -/
theorem updateRunsOn_success_iff_no_write (jobID newRunsOn : Str)
    (lines : List Str) :
    ((∃ out, updateRunsOn jobID newRunsOn lines = some out) ↔
      ∃ l ∈ targetBlock jobID lines,
        goContains (trimSpace l) runsOnKey = true ∧
        goContains (trimSpace l) ubuntuLatest = true) ∧
    (updateRunsOn jobID newRunsOn lines = none →
      (updateLoop jobID newRunsOn lines false false 0).1 = lines) := by
  have h := updateLoop_spec jobID newRunsOn lines false false 0
  constructor
  · constructor
    · rintro ⟨out, hout⟩
      cases hb : (updateLoop jobID newRunsOn lines false false 0).2 with
      | true => exact h.1.mp hb
      | false =>
        exfalso
        simp [updateRunsOn, hb] at hout
    · intro hex
      refine ⟨(updateLoop jobID newRunsOn lines false false 0).1, ?_⟩
      have hb := h.1.mpr hex
      simp [updateRunsOn, hb]
  · intro hnone
    apply h.2
    cases hb : (updateLoop jobID newRunsOn lines false false 0).2 with
    | true =>
      exfalso
      simp [updateRunsOn, hb] at hnone
    | false => rfl

/-- Witness for C10: job `test` exists and its runner sequence even
contains `ubuntu-latest`, but written across multiple lines, so the
update errors and the lines are unchanged. -/
theorem updateRunsOn_success_iff_no_write_witness :
    updateRunsOn "test".toList "ubuntu-slim".toList wMatrixLines = none ∧
    (updateLoop "test".toList "ubuntu-slim".toList wMatrixLines
      false false 0).1 = wMatrixLines := by
  have h := updateRunsOn_success_iff_no_write "test".toList
    "ubuntu-slim".toList wMatrixLines
  exact ⟨by decide, h.2 (by decide)⟩


theorem lineIndentOf_eq_sum (s : Str) :
    lineIndentOf s = (s.map indentWeight).sum := by
  have h : ∀ (t : Str) (n : Nat),
      t.foldl (fun m c => if c = ' ' then m + 1 else if c = '\t' then m + 4 else m) n =
        n + (t.map indentWeight).sum := by
    intro t
    induction t with
    | nil => intro n; simp
    | cons c cs ih =>
      intro n
      simp only [List.foldl_cons, List.map_cons, List.sum_cons, ih]
      by_cases h1 : c = ' '
      · simp [h1, indentWeight]; omega
      · by_cases h2 : c = '\t'
        · simp [h1, h2, indentWeight]; omega
        · simp [h1, h2, indentWeight]
  simpa using h s 0

theorem lineIndentOf_append (a b : Str) :
    lineIndentOf (a ++ b) = lineIndentOf a + lineIndentOf b := by
  simp [lineIndentOf_eq_sum]

theorem lineIndentOf_no_space {s : Str} (h : ∀ c ∈ s, ¬goIsSpace c) :
    lineIndentOf s = 0 := by
  rw [lineIndentOf_eq_sum]
  refine List.sum_eq_zero ?_
  intro w hw
  rcases List.mem_map.mp hw with ⟨c, hc, rfl⟩
  have hcs := h c hc
  have h1 : c ≠ ' ' := by rintro rfl; exact hcs (by decide)
  have h2 : c ≠ '\t' := by rintro rfl; exact hcs (by decide)
  simp [indentWeight, h1, h2]

theorem lineIndentOf_cons_space (s : Str) :
    lineIndentOf (' ' :: s) = 1 + lineIndentOf s := by
  simp [lineIndentOf_eq_sum, indentWeight]

theorem isPrefixOf_append_same (x p s : Str) :
    ((x ++ p).isPrefixOf (x ++ s)) = p.isPrefixOf s := by
  induction x with
  | nil => rfl
  | cons c cs ih => simp [List.isPrefixOf, ih]

theorem isPrefixOf_cons_ne (a b : Char) (p s : Str) (h : a ≠ b) :
    ((a :: p).isPrefixOf (b :: s)) = false := by
  simp [List.isPrefixOf, h]

theorem prefix_colon_iff (tid : Str) :
    ∀ id : Str, ':' ∉ id →
      (((tid ++ [':']).isPrefixOf (id ++ [':'])) = true ↔ tid = id) := by
  induction tid with
  | nil =>
    intro id hid
    cases id with
    | nil => simp [List.isPrefixOf]
    | cons b id' =>
      have hb : ':' ≠ b := fun h => hid (h ▸ List.mem_cons_self ..)
      simp [List.isPrefixOf, hb]
  | cons a tid' ih =>
    intro id hid
    cases id with
    | nil =>
      have h0 : ((tid' ++ [':']).isPrefixOf ([] : Str)) = false := by
        cases tid' <;> rfl
      constructor
      · intro h
        exfalso
        have h' : ((a == ':') && (tid' ++ [':']).isPrefixOf ([] : Str)) = true := h
        rw [h0] at h'
        simp at h'
      · intro h
        exact absurd h (by simp)
    | cons b id' =>
      have hid' : ':' ∉ id' := fun h => hid (List.mem_cons_of_mem _ h)
      by_cases hab : a = b
      · subst hab
        constructor
        · intro h
          have h' : ((a == a) && (tid' ++ [':']).isPrefixOf (id' ++ [':'])) =
              true := h
          simp only [BEq.refl, Bool.true_and] at h'
          rw [(ih id' hid').mp h']
        · intro h
          have h2 : tid' = id' := by injection h
          have h3 := (ih id' hid').mpr h2
          show ((a == a) && (tid' ++ [':']).isPrefixOf (id' ++ [':'])) = true
          simp [h3]
      · constructor
        · intro h
          exfalso
          have hf := isPrefixOf_cons_ne a b (tid' ++ [':']) (id' ++ [':']) hab
          have h' : ((a :: (tid' ++ [':'])).isPrefixOf (b :: (id' ++ [':']))) =
              true := h
          rw [hf] at h'
          exact Bool.false_ne_true h'
        · intro h
          injection h
          contradiction

theorem prefix_key_false (tid : Str) :
    ∀ key rest : Str, ':' ∉ tid → ':' ∉ key → tid ≠ key →
      ((tid ++ [':']).isPrefixOf (key ++ [':'] ++ rest)) = false := by
  induction tid with
  | nil =>
    intro key rest htid hkey hne
    cases key with
    | nil => exact absurd rfl hne
    | cons b key' =>
      have hb : ':' ≠ b := fun h => hkey (h ▸ List.mem_cons_self ..)
      simp [List.isPrefixOf, hb]
  | cons a tid' ih =>
    intro key rest htid hkey hne
    cases key with
    | nil =>
      have ha : a ≠ ':' := fun h => htid (h ▸ List.mem_cons_self ..)
      exact isPrefixOf_cons_ne a ':' (tid' ++ [':']) rest ha
    | cons b key' =>
      by_cases hab : a = b
      · subst hab
        have htid' : ':' ∉ tid' := fun h => htid (List.mem_cons_of_mem _ h)
        have hkey' : ':' ∉ key' := fun h => hkey (List.mem_cons_of_mem _ h)
        have hne' : tid' ≠ key' := fun h => hne (by rw [h])
        have hr := ih key' rest htid' hkey' hne'
        show ((a == a) && (tid' ++ [':']).isPrefixOf (key' ++ [':'] ++ rest)) =
          false
        rw [hr]
        simp
      · exact isPrefixOf_cons_ne a b (tid' ++ [':']) (key' ++ [':'] ++ rest) hab

theorem dropWhile_append_sat2 {α : Type} (p : α → Bool) :
    ∀ {l1 l2 : List α}, (∀ c ∈ l1, p c = true) →
      (l1 ++ l2).dropWhile p = l2.dropWhile p := by
  intro l1
  induction l1 with
  | nil => intro l2 _; rfl
  | cons a l ih =>
    intro l2 h
    rw [List.cons_append, List.dropWhile_cons_of_pos (h a (List.mem_cons_self ..))]
    exact ih (fun c hc => h c (List.mem_cons_of_mem _ hc))

theorem dropWhile_eq_self_of_all {α : Type} (p : α → Bool) (s : List α)
    (h : ∀ c ∈ s, p c = false) : s.dropWhile p = s := by
  cases s with
  | nil => rfl
  | cons a l =>
    exact List.dropWhile_cons_of_neg (by simp [h a (List.mem_cons_self ..)])

theorem trimSpace_of_no_space2 {s : Str}
    (h : ∀ c ∈ s, goIsSpace c = false) : trimSpace s = s := by
  unfold trimSpace
  rw [dropWhile_eq_self_of_all goIsSpace s h,
    dropWhile_eq_self_of_all goIsSpace s.reverse
      (fun c hc => h c (List.mem_reverse.mp hc)),
    List.reverse_reverse]

theorem dropWhile_append_cases {α : Type} (p : α → Bool) (l1 l2 : List α) :
    (l1 ++ l2).dropWhile p = l1.dropWhile p ++ l2 ∨
    (l1.dropWhile p = [] ∧ (l1 ++ l2).dropWhile p = l2.dropWhile p) := by
  induction l1 with
  | nil => exact Or.inr ⟨rfl, rfl⟩
  | cons a l ih =>
    by_cases hp : p a = true
    · rw [List.cons_append, List.dropWhile_cons_of_pos hp,
        List.dropWhile_cons_of_pos hp]
      exact ih
    · rw [List.cons_append, List.dropWhile_cons_of_neg (by simp [hp]),
        List.dropWhile_cons_of_neg (by simp [hp])]
      exact Or.inl rfl

theorem trimSpace_ws_drop (ws s : Str)
    (hws : ∀ w ∈ ws, goIsSpace w = true) :
    trimSpace (ws ++ s) = trimSpace s := by
  unfold trimSpace
  rw [dropWhile_append_sat2 goIsSpace hws]

theorem trimSpace_key_shape (ws ks tail : Str) (c : Char)
    (hws : ∀ w ∈ ws, goIsSpace w = true) (hc : goIsSpace c = false) :
    ∃ rest, trimSpace (ws ++ (c :: ks) ++ [':'] ++ tail) =
      (c :: ks) ++ [':'] ++ rest := by
  have h1 : ws ++ (c :: ks) ++ [':'] ++ tail =
      ws ++ ((c :: ks) ++ [':'] ++ tail) := by simp [List.append_assoc]
  rw [h1, trimSpace_ws_drop ws _ hws]
  have hfront : ((c :: ks) ++ [':'] ++ tail).dropWhile goIsSpace =
      (c :: ks) ++ [':'] ++ tail := by
    have h2 : (c :: ks) ++ [':'] ++ tail = c :: (ks ++ [':'] ++ tail) := by
      simp
    rw [h2, List.dropWhile_cons_of_neg (by simp [hc]), ← h2]
  have hrev : ((c :: ks) ++ [':'] ++ tail).reverse =
      tail.reverse ++ (':' :: (ks.reverse ++ [c])) := by
    simp [List.reverse_append]
  rcases dropWhile_append_cases goIsSpace tail.reverse
      (':' :: (ks.reverse ++ [c])) with h | ⟨_, h⟩
  · refine ⟨(tail.reverse.dropWhile goIsSpace).reverse, ?_⟩
    unfold trimSpace
    rw [hfront, hrev, h]
    simp [List.reverse_append]
  · refine ⟨[], ?_⟩
    unfold trimSpace
    rw [hfront, hrev, h, List.dropWhile_cons_of_neg (by decide)]
    simp

theorem skip_cond_key_line (tid ws ks tail : Str) (c : Char)
    (hws : ∀ w ∈ ws, w = ' ') (hws1 : ws ≠ [])
    (hc : goIsSpace c = false)
    (htidc : ':' ∉ tid) (hkc : ':' ∉ (c :: ks)) (hne : tid ≠ c :: ks)
    (hkj : (c :: ks) ≠ "jobs".toList) :
    (trimSpace (ws ++ (c :: ks) ++ [':'] ++ tail) == jobsHeader) = false ∧
    lineIndentOf (ws ++ (c :: ks) ++ [':'] ++ tail) ≠ 0 ∧
    ((tid ++ [':']).isPrefixOf
      (trimSpace (ws ++ (c :: ks) ++ [':'] ++ tail))) = false := by
  have hws' : ∀ w ∈ ws, goIsSpace w = true := by
    intro w hw; rw [hws w hw]; rfl
  obtain ⟨rest, hshape⟩ := trimSpace_key_shape ws ks tail c hws' hc
  refine ⟨?_, ?_, ?_⟩
  · rw [hshape]
    refine beq_eq_false_iff_ne.mpr ?_
    intro heq
    have hjobs : jobsHeader = ("jobs".toList ++ [':']) ++ [] := by decide
    have hpref : (("jobs".toList ++ [':']).isPrefixOf
        ((c :: ks) ++ [':'] ++ rest)) = true := by
      rw [heq, hjobs, List.append_nil]
      exact List.isPrefixOf_iff_prefix.mpr (List.prefix_refl _)
    have hfalse := prefix_key_false "jobs".toList (c :: ks) rest
      (by decide) hkc (fun h => hkj h.symm)
    rw [hfalse] at hpref
    exact Bool.false_ne_true hpref
  · cases ws with
    | nil => exact absurd rfl hws1
    | cons w ws' =>
      have hw : w = ' ' := hws w (List.mem_cons_self ..)
      subst hw
      have hx : (' ' :: ws' ++ c :: ks ++ [':'] ++ tail : Str) =
          ' ' :: (ws' ++ c :: ks ++ [':'] ++ tail) := by simp
      rw [hx, lineIndentOf_cons_space]
      omega
  · rw [hshape]
    exact prefix_key_false tid (c :: ks) rest htidc hkc hne

theorem bool_eq_false_of_not {b : Bool} (h : ¬b = true) : b = false := by
  cases b
  · rfl
  · exact absurd rfl h

theorem updateLoop_skip_line (jobID newRunsOn line : Str) (rest : List Str)
    (h1 : (trimSpace line == jobsHeader) = false)
    (h2 : lineIndentOf line ≠ 0)
    (h3 : ((jobID ++ [':']).isPrefixOf (trimSpace line)) = false) :
    updateLoop jobID newRunsOn (line :: rest) true false 0 =
      (line :: (updateLoop jobID newRunsOn rest true false 0).1,
       (updateLoop jobID newRunsOn rest true false 0).2) := by
  have h2' : (lineIndentOf line == 0) = false := beq_eq_false_iff_ne.mpr h2
  simp [updateLoop, h1, h2', h3]

theorem updateLoop_skip_block (jobID newRunsOn : Str) :
    ∀ ls rest : List Str,
      (∀ l ∈ ls, (trimSpace l == jobsHeader) = false ∧ lineIndentOf l ≠ 0 ∧
        ((jobID ++ [':']).isPrefixOf (trimSpace l)) = false) →
      updateLoop jobID newRunsOn (ls ++ rest) true false 0 =
        (ls ++ (updateLoop jobID newRunsOn rest true false 0).1,
         (updateLoop jobID newRunsOn rest true false 0).2) := by
  intro ls
  induction ls with
  | nil => intro rest _; simp
  | cons l ls' ih =>
    intro rest h
    rcases h l (List.mem_cons_self ..) with ⟨ha, hb, hc⟩
    rw [List.cons_append, updateLoop_skip_line _ _ _ _ ha hb hc,
      ih rest (fun x hx => h x (List.mem_cons_of_mem _ hx))]
    simp

theorem renderJob_skip (tid : Str) (j : SimpleJob)
    (htid : wfJobId tid) (hj : wfJobId j.id) (hne : j.id ≠ tid) :
    ∀ l ∈ renderJob j,
      (trimSpace l == jobsHeader) = false ∧ lineIndentOf l ≠ 0 ∧
      ((tid ++ [':']).isPrefixOf (trimSpace l)) = false := by
  obtain ⟨htid1, htid2, htid3⟩ := htid
  have htidc : ':' ∉ tid := fun h => (htid2 ':' h).2 rfl
  rcases j with ⟨id, ro, sv, co, scr⟩
  obtain ⟨hj1, hj2, hj3⟩ := hj
  simp only at hj1 hj2 hj3 hne
  have hRunsOn : ∀ v : Str,
      (trimSpace ("    runs-on: ".toList ++ v) == jobsHeader) = false ∧
      lineIndentOf ("    runs-on: ".toList ++ v) ≠ 0 ∧
      ((tid ++ [':']).isPrefixOf
        (trimSpace ("    runs-on: ".toList ++ v))) = false := by
    intro v
    have hx : "    runs-on: ".toList ++ v =
        "    ".toList ++ ('r' :: "uns-on".toList) ++ [':'] ++ (' ' :: v) := by
      have h0 : "    runs-on: ".toList =
          "    ".toList ++ ('r' :: "uns-on".toList) ++ [':'] ++ [' '] := by
        decide
      rw [h0]
      simp
    rw [hx]
    exact skip_cond_key_line tid "    ".toList "uns-on".toList (' ' :: v) 'r'
      (by decide) (by decide) (by decide) htidc (by decide)
      (fun h => htid3 (by rw [h]; decide)) (by decide)
  have hServices : ∀ v : Str,
      (trimSpace ("    services: ".toList ++ v) == jobsHeader) = false ∧
      lineIndentOf ("    services: ".toList ++ v) ≠ 0 ∧
      ((tid ++ [':']).isPrefixOf
        (trimSpace ("    services: ".toList ++ v))) = false := by
    intro v
    have hx : "    services: ".toList ++ v =
        "    ".toList ++ ('s' :: "ervices".toList) ++ [':'] ++ (' ' :: v) := by
      have h0 : "    services: ".toList =
          "    ".toList ++ ('s' :: "ervices".toList) ++ [':'] ++ [' '] := by
        decide
      rw [h0]
      simp
    rw [hx]
    exact skip_cond_key_line tid "    ".toList "ervices".toList (' ' :: v) 's'
      (by decide) (by decide) (by decide) htidc (by decide)
      (fun h => htid3 (by rw [h]; decide)) (by decide)
  have hContainer : ∀ v : Str,
      (trimSpace ("    container: ".toList ++ v) == jobsHeader) = false ∧
      lineIndentOf ("    container: ".toList ++ v) ≠ 0 ∧
      ((tid ++ [':']).isPrefixOf
        (trimSpace ("    container: ".toList ++ v))) = false := by
    intro v
    have hx : "    container: ".toList ++ v =
        "    ".toList ++ ('c' :: "ontainer".toList) ++ [':'] ++ (' ' :: v) := by
      have h0 : "    container: ".toList =
          "    ".toList ++ ('c' :: "ontainer".toList) ++ [':'] ++ [' '] := by
        decide
      rw [h0]
      simp
    rw [hx]
    exact skip_cond_key_line tid "    ".toList "ontainer".toList (' ' :: v) 'c'
      (by decide) (by decide) (by decide) htidc (by decide)
      (fun h => htid3 (by rw [h]; decide)) (by decide)
  have hSteps :
      (trimSpace ("    steps:".toList) == jobsHeader) = false ∧
      lineIndentOf ("    steps:".toList) ≠ 0 ∧
      ((tid ++ [':']).isPrefixOf (trimSpace ("    steps:".toList))) = false := by
    have hx : "    steps:".toList =
        "    ".toList ++ ('s' :: "teps".toList) ++ [':'] ++ [] := by decide
    rw [hx]
    exact skip_cond_key_line tid "    ".toList "teps".toList [] 's'
      (by decide) (by decide) (by decide) htidc (by decide)
      (fun h => htid3 (by rw [h]; decide)) (by decide)
  have hScript : ∀ v : Str,
      (trimSpace ("      - run: ".toList ++ v) == jobsHeader) = false ∧
      lineIndentOf ("      - run: ".toList ++ v) ≠ 0 ∧
      ((tid ++ [':']).isPrefixOf
        (trimSpace ("      - run: ".toList ++ v))) = false := by
    intro v
    have hx : "      - run: ".toList ++ v =
        "      ".toList ++ ('-' :: " run".toList) ++ [':'] ++ (' ' :: v) := by
      have h0 : "      - run: ".toList =
          "      ".toList ++ ('-' :: " run".toList) ++ [':'] ++ [' '] := by
        decide
      rw [h0]
      simp
    rw [hx]
    exact skip_cond_key_line tid "      ".toList " run".toList (' ' :: v) '-'
      (by decide) (by decide) (by decide) htidc (by decide)
      (fun h => (htid2 ' ' (by rw [h]; decide)).1 (by decide)) (by decide)
  have hHeader :
      (trimSpace ("  ".toList ++ id ++ [':']) == jobsHeader) = false ∧
      lineIndentOf ("  ".toList ++ id ++ [':']) ≠ 0 ∧
      ((tid ++ [':']).isPrefixOf
        (trimSpace ("  ".toList ++ id ++ [':']))) = false := by
    cases id with
    | nil => exact absurd rfl hj1
    | cons c ks =>
      have hx : "  ".toList ++ (c :: ks) ++ [':'] =
          "  ".toList ++ (c :: ks) ++ [':'] ++ [] := by simp
      rw [hx]
      exact skip_cond_key_line tid "  ".toList ks [] c
        (by decide) (by decide)
        (bool_eq_false_of_not (hj2 c (List.mem_cons_self ..)).1)
        htidc (fun h => (hj2 ':' h).2 rfl) (fun h => hne h.symm)
        (fun h => hj3 (by rw [h]; decide))
  intro l hl
  simp only [renderJob] at hl
  rcases List.mem_append.mp hl with h4 | hmap
  · rcases List.mem_append.mp h4 with h3 | hsteps
    · rcases List.mem_append.mp h3 with h2 | hco
      · rcases List.mem_append.mp h2 with h1 | hsv
        · rcases List.mem_cons.mp h1 with heq | h1
          · subst heq; exact hHeader
          · rcases List.mem_cons.mp h1 with heq | h1
            · subst heq; exact hRunsOn ro
            · exact absurd h1 (List.not_mem_nil l)
        · rcases sv with _ | s0
          · exact absurd hsv (List.not_mem_nil l)
          · rcases List.mem_cons.mp hsv with heq | h1
            · subst heq; exact hServices s0
            · exact absurd h1 (List.not_mem_nil l)
      · rcases co with _ | c0
        · exact absurd hco (List.not_mem_nil l)
        · rcases List.mem_cons.mp hco with heq | h1
          · subst heq; exact hContainer c0
          · exact absurd h1 (List.not_mem_nil l)
    · rcases List.mem_cons.mp hsteps with heq | h1
      · subst heq; exact hSteps
      · exact absurd h1 (List.not_mem_nil l)
  · rcases List.mem_map.mp hmap with ⟨r, hr, heq⟩
    subst heq
    exact hScript r

theorem renderJob_cons (j : SimpleJob) :
    renderJob j = ("  ".toList ++ (j.id ++ [':'])) ::
      (("    runs-on: ".toList ++ j.runsOn) ::
        renderTail j.services j.container j.scripts) := by
  rcases j with ⟨id, ro, sv, co, scr⟩
  simp [renderJob, renderTail, List.append_assoc]

theorem updateLoop_enter_target (tid newVal : Str) (sv co : Option Str)
    (scr : List Str) (rest : List Str) (htid : wfJobId tid) :
    updateLoop tid newVal
        (renderJob ⟨tid, ubuntuLatest, sv, co, scr⟩ ++ rest) true false 0 =
      (renderJob ⟨tid, newVal, sv, co, scr⟩ ++ rest, true) := by
  obtain ⟨htid1, htid2, htid3⟩ := htid
  have htidc : ':' ∉ tid := fun h => (htid2 ':' h).2 rfl
  have hnospace : ∀ c ∈ tid ++ [':'], goIsSpace c = false := by
    intro c hc
    rcases List.mem_append.mp hc with h | h
    · exact bool_eq_false_of_not (htid2 c h).1
    · rw [List.mem_singleton.mp h]
      rfl
  have htrimH : trimSpace ("  ".toList ++ (tid ++ [':'])) = tid ++ [':'] := by
    rw [trimSpace_ws_drop "  ".toList _ (by decide)]
    exact trimSpace_of_no_space2 hnospace
  have c1 : (trimSpace ("  ".toList ++ (tid ++ [':'])) == jobsHeader) =
      false := by
    rw [htrimH]
    refine beq_eq_false_iff_ne.mpr ?_
    intro heq
    have hp : ((tid ++ [':']).isPrefixOf ("jobs".toList ++ [':'])) = true := by
      have hj : jobsHeader = "jobs".toList ++ [':'] := by decide
      rw [← hj, ← heq]
      exact List.isPrefixOf_iff_prefix.mpr (List.prefix_refl _)
    have h2 := (prefix_colon_iff tid "jobs".toList (by decide)).mp hp
    exact htid3 (by rw [h2]; decide)
  have hindH : lineIndentOf ("  ".toList ++ (tid ++ [':'])) = 2 := by
    rw [lineIndentOf_append]
    have h1 : lineIndentOf "  ".toList = 2 := by decide
    have h2 : lineIndentOf (tid ++ [':']) = 0 :=
      lineIndentOf_no_space (fun c hc h => by
        rw [hnospace c hc] at h
        exact Bool.false_ne_true h)
    omega
  have c4 : ((tid ++ [':']).isPrefixOf
      (trimSpace ("  ".toList ++ (tid ++ [':'])))) = true := by
    rw [htrimH]
    exact List.isPrefixOf_iff_prefix.mpr (List.prefix_refl _)
  have c7 : ((tid ++ [':']).isPrefixOf
      (trimSpace ("    runs-on: ".toList ++ ubuntuLatest))) = false := by
    have hx : trimSpace ("    runs-on: ".toList ++ ubuntuLatest) =
        "runs-on".toList ++ [':'] ++ " ubuntu-latest".toList := by decide
    rw [hx]
    exact prefix_key_false tid "runs-on".toList " ubuntu-latest".toList htidc
      (by decide) (fun h => htid3 (by rw [h]; decide))
  have stepH : ∀ ls : List Str,
      updateLoop tid newVal (("  ".toList ++ (tid ++ [':'])) :: ls)
          true false 0 =
        (("  ".toList ++ (tid ++ [':'])) ::
          (updateLoop tid newVal ls true true 2).1,
         (updateLoop tid newVal ls true true 2).2) := by
    intro ls
    simp only [updateLoop, c1, c4, hindH]
    simp
  have stepRL : ∀ ls : List Str,
      updateLoop tid newVal (("    runs-on: ".toList ++ ubuntuLatest) :: ls)
          true true 2 =
        (("    runs-on: ".toList ++ newVal) :: ls, true) := by
    intro ls
    have c5 : (trimSpace ("    runs-on: ".toList ++ ubuntuLatest) ==
        jobsHeader) = false := by decide
    have c6 : (lineIndentOf ("    runs-on: ".toList ++ ubuntuLatest) == 0) =
        false := by decide
    have c8 : (decide (lineIndentOf ("    runs-on: ".toList ++ ubuntuLatest)
          ≤ 2) &&
        !(trimSpace ("    runs-on: ".toList ++ ubuntuLatest)).isEmpty &&
        !([' '].isPrefixOf
          (trimSpace ("    runs-on: ".toList ++ ubuntuLatest)))) = false := by
      decide
    have c9 : (goContains
          (trimSpace ("    runs-on: ".toList ++ ubuntuLatest)) runsOnKey &&
        goContains (trimSpace ("    runs-on: ".toList ++ ubuntuLatest))
          ubuntuLatest) = true := by decide
    have c10 : leadingIndent ("    runs-on: ".toList ++ ubuntuLatest) ++
        "runs-on: ".toList ++ newVal = "    runs-on: ".toList ++ newVal := by
      have h0 : leadingIndent ("    runs-on: ".toList ++ ubuntuLatest) =
          "    ".toList := by decide
      have h1 : ("    ".toList ++ "runs-on: ".toList : Str) =
          "    runs-on: ".toList := by decide
      rw [h0, ← h1, List.append_assoc]
    simp only [updateLoop, c5, c6, c7, c8, c9, c10]
    simp
  have hsplit : renderJob ⟨tid, ubuntuLatest, sv, co, scr⟩ ++ rest =
      ("  ".toList ++ (tid ++ [':'])) ::
        (("    runs-on: ".toList ++ ubuntuLatest) ::
          (renderTail sv co scr ++ rest)) := by
    rw [renderJob_cons]
    simp [List.append_assoc]
  rw [hsplit, stepH, stepRL]
  rw [renderJob_cons]
  simp [List.append_assoc]

theorem updateRunsOn_render (pre post : List SimpleJob) (tj : SimpleJob)
    (newVal : Str)
    (hpre : ∀ j ∈ pre, wfJobId j.id ∧ j.id ≠ tj.id)
    (htj : wfJobId tj.id)
    (hrun : tj.runsOn = ubuntuLatest) :
    updateRunsOn tj.id newVal (renderDoc (pre ++ tj :: post)) =
      some (renderDoc (pre ++ { tj with runsOn := newVal } :: post)) := by
  rcases tj with ⟨tid, ro, sv, co, scr⟩
  have hro : ro = ubuntuLatest := hrun
  subst hro
  have htid : wfJobId tid := htj
  have hpre' : ∀ j ∈ pre, wfJobId j.id ∧ j.id ≠ tid := hpre
  have step0 : ∀ ls : List Str,
      updateLoop tid newVal ("name: test".toList :: ls) false false 0 =
        ("name: test".toList :: (updateLoop tid newVal ls false false 0).1,
         (updateLoop tid newVal ls false false 0).2) := by
    intro ls
    simp only [updateLoop]
    simp
    intro hx
    exact absurd hx (by decide)
  have step1 : ∀ ls : List Str,
      updateLoop tid newVal ("on: push".toList :: ls) false false 0 =
        ("on: push".toList :: (updateLoop tid newVal ls false false 0).1,
         (updateLoop tid newVal ls false false 0).2) := by
    intro ls
    simp only [updateLoop]
    simp
    intro hx
    exact absurd hx (by decide)
  have stepJ : ∀ ls : List Str,
      updateLoop tid newVal (jobsHeader :: ls) false false 0 =
        (jobsHeader :: (updateLoop tid newVal ls true false 0).1,
         (updateLoop tid newVal ls true false 0).2) := by
    intro ls
    have h : trimSpace jobsHeader = jobsHeader := by decide
    simp [updateLoop, h]
  have hskip := updateLoop_skip_block tid newVal (pre.flatMap renderJob)
    (renderJob ⟨tid, ubuntuLatest, sv, co, scr⟩ ++ post.flatMap renderJob)
    (by
      intro l hl
      rcases List.mem_flatMap.mp hl with ⟨j, hj, hlj⟩
      exact renderJob_skip tid j htid (hpre' j hj).1 (hpre' j hj).2 l hlj)
  have htarget := updateLoop_enter_target tid newVal sv co scr
    (post.flatMap renderJob) htid
  have hdoc : renderDoc (pre ++ ⟨tid, ubuntuLatest, sv, co, scr⟩ :: post) =
      "name: test".toList :: ("on: push".toList :: (jobsHeader ::
        (pre.flatMap renderJob ++
          (renderJob ⟨tid, ubuntuLatest, sv, co, scr⟩ ++
            post.flatMap renderJob)))) := by
    simp [renderDoc, List.append_assoc]
  show updateRunsOn tid newVal
      (renderDoc (pre ++ ⟨tid, ubuntuLatest, sv, co, scr⟩ :: post)) = _
  unfold updateRunsOn
  rw [hdoc, step0, step1, stepJ, hskip, htarget]
  simp [renderDoc, List.append_assoc]

theorem takeWhile_append_all {α : Type} (p : α → Bool) :
    ∀ {l1 l2 : List α}, (∀ c ∈ l1, p c = true) →
      (l1 ++ l2).takeWhile p = l1 ++ l2.takeWhile p := by
  intro l1
  induction l1 with
  | nil => intro l2 _; rfl
  | cons a l ih =>
    intro l2 h
    rw [List.cons_append, List.takeWhile_cons_of_pos (h a (List.mem_cons_self ..)),
      List.cons_append, ih (fun c hc => h c (List.mem_cons_of_mem _ hc))]

theorem dropWhile_append_all {α : Type} (p : α → Bool) :
    ∀ {l1 l2 : List α}, (∀ c ∈ l1, p c = true) →
      (l1 ++ l2).dropWhile p = l2.dropWhile p := by
  intro l1
  induction l1 with
  | nil => intro l2 _; rfl
  | cons a l ih =>
    intro l2 h
    rw [List.cons_append, List.dropWhile_cons_of_pos (h a (List.mem_cons_self ..))]
    exact ih (fun c hc => h c (List.mem_cons_of_mem _ hc))

theorem hafterPrefixOf_self (p x : Str) : afterPrefixOf p (p ++ x) = some x := by
  unfold afterPrefixOf
  rw [if_pos (List.isPrefixOf_iff_prefix.mpr (List.prefix_append p x)),
    List.drop_left]

theorem isPrefixOf_ne_at (x : Str) (a b : Char) (p q : Str) (hab : a ≠ b) :
    ((x ++ (a :: p)).isPrefixOf (x ++ (b :: q))) = false := by
  rw [isPrefixOf_append_same]
  exact isPrefixOf_cons_ne a b p q hab

theorem parseHeader_render (id : Str) :
    parseHeader ("  ".toList ++ (id ++ [':'])) = some id := by
  unfold parseHeader
  rw [hafterPrefixOf_self]
  show (if (id ++ [':']).getLast? == some ':' then
    some (id ++ [':']).dropLast else none) = some id
  rw [List.getLast?_concat, List.dropLast_concat]
  rfl

theorem afterPrefix_services_container (v : Str) :
    afterPrefixOf "    services: ".toList ("    container: ".toList ++ v) =
      none := by
  have e1 : "    services: ".toList =
      "    ".toList ++ ('s' :: "ervices: ".toList) := by decide
  have e2 : "    container: ".toList ++ v =
      "    ".toList ++ ('c' :: ("ontainer: ".toList ++ v)) := by
    have h0 : "    container: ".toList =
        "    ".toList ++ ('c' :: "ontainer: ".toList) := by decide
    rw [h0]
    simp
  unfold afterPrefixOf
  rw [e1, e2, isPrefixOf_ne_at "    ".toList 's' 'c' _ _ (by decide)]
  rfl

theorem afterPrefix_services_steps :
    afterPrefixOf "    services: ".toList "    steps:".toList = none := by
  decide

theorem afterPrefix_container_steps :
    afterPrefixOf "    container: ".toList "    steps:".toList = none := by
  decide

theorem runMarker_not_header (id : Str) (hid : wfJobId id) :
    (runMarker.isPrefixOf ("  ".toList ++ (id ++ [':']))) = false := by
  obtain ⟨h1, h2, h3⟩ := hid
  cases id with
  | nil => exact absurd rfl h1
  | cons c ks =>
    have e1 : runMarker = "  ".toList ++ (' ' :: "   - run: ".toList) := by
      decide
    have hc : ' ' ≠ c := by
      intro h
      exact (h2 c (List.mem_cons_self ..)).1 (by rw [← h]; decide)
    have e2 : "  ".toList ++ ((c :: ks) ++ [':']) =
        "  ".toList ++ (c :: (ks ++ [':'])) := by simp
    rw [e1, e2]
    exact isPrefixOf_ne_at "  ".toList ' ' c _ _ hc

theorem scripts_take_drop (scr : List Str) (rest : List Str)
    (hrest : ∀ l, rest.head? = some l → (runMarker.isPrefixOf l) = false) :
    ((scr.map (fun r => "      - run: ".toList ++ r) ++ rest).takeWhile
        (fun l => runMarker.isPrefixOf l)).map
      (fun l => l.drop runMarker.length) = scr ∧
    (scr.map (fun r => "      - run: ".toList ++ r) ++ rest).dropWhile
      (fun l => runMarker.isPrefixOf l) = rest := by
  have hall : ∀ l ∈ scr.map (fun r => "      - run: ".toList ++ r),
      (runMarker.isPrefixOf l) = true := by
    intro l hl
    rcases List.mem_map.mp hl with ⟨r, _, rfl⟩
    exact List.isPrefixOf_iff_prefix.mpr (List.prefix_append _ r)
  have htail : rest.takeWhile (fun l => runMarker.isPrefixOf l) = [] := by
    cases rest with
    | nil => rfl
    | cons l r =>
      exact List.takeWhile_cons_of_neg (by simp [hrest l rfl])
  have hdtail : rest.dropWhile (fun l => runMarker.isPrefixOf l) = rest := by
    cases rest with
    | nil => rfl
    | cons l r =>
      exact List.dropWhile_cons_of_neg (by simp [hrest l rfl])
  constructor
  · rw [takeWhile_append_all _ hall, htail, List.append_nil, List.map_map]
    refine List.map_congr_left ?_ |>.trans (List.map_id _)
    intro r _
    show ("      - run: ".toList ++ r).drop runMarker.length = r
    rw [show runMarker = "      - run: ".toList from rfl, List.drop_left]
  · rw [dropWhile_append_all _ hall, hdtail]

theorem parseOneJob_render (j : SimpleJob) (rest : List Str)
    (hid : wfJobId j.id)
    (hrest : ∀ l, rest.head? = some l → (runMarker.isPrefixOf l) = false) :
    parseOneJob (renderJob j ++ rest) = some (j, rest) := by
  rcases j with ⟨id, ro, sv, co, scr⟩
  obtain ⟨htake, hdrop⟩ := scripts_take_drop scr rest hrest
  have hsteps_eq : ("    steps:".toList == "    steps:".toList) = true := by
    decide
  rw [renderJob_cons]
  rcases sv with _ | s0 <;> rcases co with _ | c0 <;>
    (simp only [renderTail, List.cons_append, List.nil_append,
      List.append_assoc, List.singleton_append]
     simp only [parseOneJob, parseHeader_render, hafterPrefixOf_self,
      afterPrefix_services_container, afterPrefix_services_steps,
      afterPrefix_container_steps, hsteps_eq, if_true, eq_self_iff_true,
      htake, hdrop])
theorem renderJob_length_pos (j : SimpleJob) : 1 ≤ (renderJob j).length := by
  rw [renderJob_cons]
  simp

theorem length_le_flatMap_render (jobs : List SimpleJob) :
    jobs.length ≤ (jobs.flatMap renderJob).length := by
  induction jobs with
  | nil => simp
  | cons j js ih =>
    simp only [List.flatMap_cons, List.length_append, List.length_cons]
    have h1 := renderJob_length_pos j
    omega

theorem parseJobsF_render :
    ∀ jobs : List SimpleJob, (∀ j ∈ jobs, wfJobId j.id) →
      ∀ fuel, jobs.length ≤ fuel →
        parseJobsF fuel (jobs.flatMap renderJob) = some jobs := by
  intro jobs
  induction jobs with
  | nil =>
    intro _ fuel _
    simp only [List.flatMap_nil]
    cases fuel <;> rfl
  | cons j js ih =>
    intro hwf fuel hfuel
    obtain ⟨f, rfl⟩ : ∃ f, fuel = f + 1 := by
      cases fuel with
      | zero => simp at hfuel
      | succ f => exact ⟨f, rfl⟩
    have hone : parseOneJob (renderJob j ++ js.flatMap renderJob) =
        some (j, js.flatMap renderJob) := by
      apply parseOneJob_render j _ (hwf j (List.mem_cons_self ..))
      intro l hl
      cases js with
      | nil => simp at hl
      | cons j2 js' =>
        simp only [List.flatMap_cons] at hl
        rw [renderJob_cons] at hl
        simp only [List.cons_append, List.head?_cons, Option.some_inj] at hl
        rw [← hl]
        exact runMarker_not_header j2.id (hwf j2 (by simp))
    have hcons : renderJob j ++ js.flatMap renderJob =
        ("  ".toList ++ (j.id ++ [':'])) ::
          (("    runs-on: ".toList ++ j.runsOn) ::
            (renderTail j.services j.container j.scripts ++
              js.flatMap renderJob)) := by
      rw [renderJob_cons]
      simp [List.cons_append]
    have hih := ih (fun x hx => hwf x (List.mem_cons_of_mem _ hx)) f (by
      simp only [List.length_cons] at hfuel
      omega)
    simp only [List.flatMap_cons]
    rw [hcons]
    simp only [parseJobsF]
    rw [← hcons, hone]
    show (match parseJobsF f (js.flatMap renderJob) with
      | none => none
      | some js2 => some (j :: js2)) = some (j :: js)
    rw [hih]

theorem parseSimpleDoc_render (jobs : List SimpleJob)
    (hwf : ∀ j ∈ jobs, wfJobId j.id) :
    parseSimpleDoc (renderDoc jobs) = some jobs := by
  have hdoc : renderDoc jobs = "name: test".toList :: ("on: push".toList ::
      (jobsHeader :: jobs.flatMap renderJob)) := by
    simp [renderDoc]
  rw [hdoc]
  simp only [parseSimpleDoc]
  rw [if_pos (by decide : ("name: test".toList == "name: test".toList &&
    ("on: push".toList == "on: push".toList) &&
    (jobsHeader == jobsHeader)) = true)]
  exact parseJobsF_render jobs hwf _ (length_le_flatMap_render jobs)

/-- Counterexample to C8 as stated: for the canonical document whose only
job `test` runs on `windows-latest`, updating that job\x27s runner to
`ubuntu-slim` fails (no runs-on line contains `ubuntu-latest`), so no
write happens and re-loading the unchanged document yields the job with
its old runner, not the new value. -/
theorem updateRunsOn_roundtrip_counterexample :
    updateRunsOn wWinJob.id "ubuntu-slim".toList (renderDoc [wWinJob]) =
      none ∧
    parseSimpleDoc (renderDoc [wWinJob]) = some [wWinJob] ∧
    wWinJob.runsOn ≠ "ubuntu-slim".toList :=
  ⟨by decide, by decide, by decide⟩

/-- C8 (amended): over canonical documents with well-formed job ids, when
the target job\x27s runner is the scalar `ubuntu-latest`, updating it to any
new value succeeds and produces exactly the canonical rendering of the
updated document, and re-loading that document yields the job list in
which the target\x27s runner equals the new value while its services,
container and scripts are unchanged (and all other jobs are untouched). -/
theorem updateRunsOn_reload_roundtrip_amended
    (pre post : List SimpleJob) (tj : SimpleJob) (newVal : Str)
    (hpre : ∀ j ∈ pre, wfJobId j.id ∧ j.id ≠ tj.id)
    (hpost : ∀ j ∈ post, wfJobId j.id)
    (htj : wfJobId tj.id)
    (hrun : tj.runsOn = ubuntuLatest) :
    updateRunsOn tj.id newVal (renderDoc (pre ++ tj :: post)) =
      some (renderDoc (pre ++ { tj with runsOn := newVal } :: post)) ∧
    parseSimpleDoc
        (renderDoc (pre ++ { tj with runsOn := newVal } :: post)) =
      some (pre ++ { tj with runsOn := newVal } :: post) ∧
    ({ tj with runsOn := newVal }).runsOn = newVal ∧
    ({ tj with runsOn := newVal }).services = tj.services ∧
    ({ tj with runsOn := newVal }).container = tj.container ∧
    ({ tj with runsOn := newVal }).scripts = tj.scripts := by
  refine ⟨updateRunsOn_render pre post tj newVal hpre htj hrun, ?_,
    rfl, rfl, rfl, rfl⟩
  apply parseSimpleDoc_render
  intro x hx
  rcases List.mem_append.mp hx with h | h
  · exact (hpre x h).1
  · rcases List.mem_cons.mp h with heq | h
    · rw [heq]
      exact htj
    · exact hpost x h

/-- Witness for C8: a concrete two-job document whose job `build` runs on
`ubuntu-latest`; the update rewrites only its runs-on line and the
reload returns the updated job list. -/
theorem updateRunsOn_reload_roundtrip_amended_witness :
    updateRunsOn wGoodJob.id "ubuntu-slim".toList
        (renderDoc [wGoodJob, wWinJob]) =
      some (renderDoc [{ wGoodJob with runsOn := "ubuntu-slim".toList },
        wWinJob]) ∧
    parseSimpleDoc
        (renderDoc [{ wGoodJob with runsOn := "ubuntu-slim".toList },
          wWinJob]) =
      some [{ wGoodJob with runsOn := "ubuntu-slim".toList }, wWinJob] ∧
    ({ wGoodJob with runsOn := "ubuntu-slim".toList }).runsOn =
      "ubuntu-slim".toList ∧
    ({ wGoodJob with runsOn := "ubuntu-slim".toList }).services =
      wGoodJob.services ∧
    ({ wGoodJob with runsOn := "ubuntu-slim".toList }).container =
      wGoodJob.container ∧
    ({ wGoodJob with runsOn := "ubuntu-slim".toList }).scripts =
      wGoodJob.scripts :=
  updateRunsOn_reload_roundtrip_amended [] [wWinJob] wGoodJob
    "ubuntu-slim".toList (by decide) (by decide) (by decide) (by decide)


end GhSlimify
